import Mathlib

/-!
Formal model of `src/process_scheduler.c`, a Priority/SRTF non-preemptive
process scheduler with aging and a concurrent I/O-completion monitor.

Modelling conventions:

* C `int` fields are modelled as `Int` (the program's values are small, so
  overflow never occurs on the scenarios considered; where the C code
  divides or takes `%`, the operands are guaranteed positive, where Lean's
  Euclidean `/`/`%` on `Int` agree with C's truncating `/`/`%`).
* The linked-list queues (`ready_queue`, `waiting_queue`) hold pointers into
  the `all_processes` array.  Since every process record is, at any instant,
  in exactly one of {not-yet-arrived in the array, ready queue, running
  slot, waiting queue, terminated in the array}, the simulation state keeps
  five disjoint containers of `Process` values.  The arrival scan of the C
  code (a walk over `all_processes` guarded by `has_arrived`) becomes a walk
  over the `pending` list, which holds exactly the records with
  `has_arrived = false` in their original array order; the
  all-terminated scan becomes a scan over all five containers.
* The I/O manager thread polls once per millisecond, racing with the
  scheduler loop, which also advances one tick per millisecond.  The model
  uses the canonical deterministic interleaving: one full scheduler
  iteration, then one monitor scan of the waiting queue, per tick (the
  design allows this schedule: both flows run one quantum per tick and the
  monitor's scan observes the clock value the loop just produced).
* `run_ticks` is a ghost observer (not a field of the C struct): it counts
  the ticks at whose end the record occupies the running slot, i.e. the
  time the record has spent Running.
* The `printf` event stream is modelled by the `events` list.
-/

/-- Process lifecycle states, from the C `ProcessState` enum. -/
inductive ProcessState where
  | NEW
  | READY
  | RUNNING
  | WAITING
  | TERMINATED
deriving DecidableEq, Repr, Inhabited

/-- Process control block, from the C `struct Process` (the `next` pointer is
represented by list structure; `run_ticks` is a ghost observer counting time
spent Running). -/
structure Process where
  pid : Int
  arrival_time : Int
  cpu_execution_time : Int
  remaining_time : Int
  interval_time : Int
  io_time : Int
  priority : Int
  original_priority : Int
  state : ProcessState
  time_in_ready_queue : Int
  io_completion_time : Int
  has_arrived : Bool
  run_ticks : Int
deriving DecidableEq, Repr, Inhabited

/-- Timestamped scheduling events, one per `printf` in the C code. -/
inductive Event where
  | arrived (clock pid : Int)
  | movedToReady (clock pid : Int)
  | ioFinished (clock pid : Int)
  | dispatched (clock pid pr rm burst : Int)
  | blocked (clock pid io : Int)
  | terminatedEv (clock pid : Int)
deriving DecidableEq, Repr

/-- The strict Priority-SRTF comparison of `insert_ready_queue` (C lines
176-180): `p` must come before `c` when `p` has the lower priority number,
or equal priority and strictly smaller remaining time. -/
def lt_key (p c : Process) : Prop :=
  p.priority < c.priority ∨ (p.priority = c.priority ∧ p.remaining_time < c.remaining_time)

instance (p c : Process) : Decidable (lt_key p c) := by
  unfold lt_key; exact inferInstance

/-- Non-strict version of the ordering key: `p` may stay before `c`. -/
def le_key (p c : Process) : Prop := ¬ lt_key c p

instance (p c : Process) : Decidable (le_key p c) := by
  unfold le_key; exact inferInstance

/-- The position-finding walk of `insert_ready_queue`: insert `p` in front of
the first element that `p` strictly precedes (C lines 170-204). -/
def insert_sorted (p : Process) : List Process → List Process
  | [] => [p]
  | c :: rest => if lt_key p c then p :: c :: rest else c :: insert_sorted p rest

/-- C `insert_ready_queue`: reset the aging timer of the incoming record
(line 159), then insert at the position preserving Priority-SRTF order. -/
def insert_ready_queue (q : List Process) (p : Process) : List Process :=
  insert_sorted { p with time_in_ready_queue := 0 } q

/-- C `update_aging` applied to one record of the ready queue (lines
422-437): add the elapsed time to the aging timer; once it reaches 100,
keep the remainder and decrement the priority by the number of whole 100ms
units, clamped at 0 (records already at priority 0 are left unchanged). -/
def aging_record (elapsed : Int) (p : Process) : Process :=
  let t := p.time_in_ready_queue + elapsed
  if t ≥ 100 then
    let steps := t / 100
    let t2 := t % 100
    let pr :=
      if p.priority > 0 then
        let q := p.priority - steps
        if q < 0 then 0 else q
      else p.priority
    { p with time_in_ready_queue := t2, priority := pr }
  else
    { p with time_in_ready_queue := t }

/-- C `update_aging`: walk the ready queue, aging every resident. -/
def update_aging (elapsed : Int) (q : List Process) : List Process :=
  q.map (aging_record elapsed)

/-- C `resort_ready_queue`: with at most one resident do nothing; otherwise
drain the queue in order and re-insert every record via
`insert_ready_queue`. -/
def resort_ready_queue (q : List Process) : List Process :=
  if q.length ≤ 1 then q else q.foldl insert_ready_queue []

/-- State carried by the simulation across ticks: the five disjoint
containers of records, the global clock, the running slot with its burst
deadline, the aging bookkeeping, the completion flag and the event log. -/
structure SimState where
  pending : List Process
  ready : List Process
  waiting : List Process
  terminated_list : List Process
  running : Option Process
  running_until : Int
  clock : Int
  last_aging_check : Int
  finished : Bool
  events : List Event
deriving DecidableEq, Repr

/-- All records of the simulation, across the five containers (the C
`all_processes` array up to reordering). -/
def allRecords (s : SimState) : List Process :=
  s.pending ++ s.ready ++ s.waiting ++ s.running.toList ++ s.terminated_list

/-- Clock advance at the top of each scheduler iteration (C line 487). -/
def tick_clock (s : SimState) : SimState := { s with clock := s.clock + 1 }

/-- Arrival scan (C lines 494-514): every not-yet-arrived record whose
arrival time has been reached is marked arrived and READY and inserted into
the ready queue, emitting the arrival and queue-entry events. -/
def arrivals_go (clock : Int) (pd rd : List Process) (ev : List Event) :
    List Process × List Process × List Event :=
  match pd with
  | [] => ([], rd, ev)
  | p :: rest =>
    if p.arrival_time ≤ clock then
      arrivals_go clock rest
        (insert_ready_queue rd { p with has_arrived := true, state := .READY })
        (ev ++ [.arrived clock p.pid, .movedToReady clock p.pid])
    else
      let t := arrivals_go clock rest rd ev
      (p :: t.1, t.2.1, t.2.2)

/-- Arrival phase of a tick, updating the pending and ready containers. -/
def arrivals_phase (s : SimState) : SimState :=
  let t := arrivals_go s.clock s.pending s.ready s.events
  { s with pending := t.1, ready := t.2.1, events := t.2.2 }

/-- Aging phase of a tick (C lines 517-522): when the clock moved past the
last aging check, age every ready resident by the elapsed time and re-sort
the ready queue. -/
def aging_phase (s : SimState) : SimState :=
  if s.clock > s.last_aging_check then
    { s with
      ready := resort_ready_queue (update_aging (s.clock - s.last_aging_check) s.ready),
      last_aging_check := s.clock }
  else s

/-- Burst resolution (C lines 525-558): when the running record's burst
deadline has been reached, compute the consumed burst length from the clock
(`clock - (running_until - interval_time)`), clamp it by the remaining
time, subtract it, and either terminate the record or block it for I/O. -/
def resolve_phase (s : SimState) : SimState :=
  match s.running with
  | none => s
  | some p =>
    if s.clock ≥ s.running_until then
      let bt0 := s.clock - (s.running_until - p.interval_time)
      let bt := if bt0 > p.remaining_time then p.remaining_time else bt0
      let r := p.remaining_time - bt
      if r ≤ 0 then
        { s with running := none,
                 terminated_list :=
                   s.terminated_list ++ [{ p with remaining_time := r, state := .TERMINATED }],
                 events := s.events ++ [.terminatedEv s.clock p.pid] }
      else
        let q := { p with remaining_time := r, state := ProcessState.WAITING,
                          io_completion_time := s.clock + p.io_time }
        { s with running := none,
                 waiting := s.waiting ++ [q],
                 events := s.events ++ [.blocked s.clock p.pid p.io_time] }
    else s

/-- Dispatch (C lines 561-579): with the slot vacant and the ready queue
non-empty, remove the head, mark it RUNNING, and run it for
`min(interval_time, remaining_time)` milliseconds. -/
def dispatch_phase (s : SimState) : SimState :=
  match s.running with
  | some _ => s
  | none =>
    match s.ready with
    | [] => s
    | p :: rest =>
      let bt := if p.interval_time > p.remaining_time then p.remaining_time else p.interval_time
      { s with ready := rest,
               running := some { p with state := .RUNNING },
               running_until := s.clock + bt,
               events := s.events ++ [.dispatched s.clock p.pid p.priority p.remaining_time bt] }

/-- All-terminated test (C lines 582-588). -/
def all_done (s : SimState) : Bool :=
  (allRecords s).all (fun p => p.state == ProcessState.TERMINATED)

/-- One scan of the I/O manager (C lines 357-402): every waiting record
whose completion deadline has been reached is removed (from any position),
marked READY and inserted into the ready queue, emitting the I/O-finished
and queue-entry events. -/
def io_scan (clock : Int) (wt rd : List Process) (ev : List Event) :
    List Process × List Process × List Event :=
  match wt with
  | [] => ([], rd, ev)
  | p :: rest =>
    if clock ≥ p.io_completion_time then
      io_scan clock rest
        (insert_ready_queue rd { p with state := .READY })
        (ev ++ [.ioFinished clock p.pid, .movedToReady clock p.pid])
    else
      let t := io_scan clock rest rd ev
      (p :: t.1, t.2.1, t.2.2)

/-- Monitor phase of a tick, updating the waiting and ready containers. -/
def io_phase (s : SimState) : SimState :=
  let t := io_scan s.clock s.waiting s.ready s.events
  { s with waiting := t.1, ready := t.2.1, events := t.2.2 }

/-- Ghost bookkeeping: a tick at whose end the slot is occupied counts one
millisecond of Running time for that record. -/
def ghost_phase (s : SimState) : SimState :=
  { s with running := s.running.map (fun p => { p with run_ticks := p.run_ticks + 1 }) }

/-- The state in the middle of a tick, after the loop body's clock advance,
arrival scan, aging pass, burst resolution and dispatch, at the program
point of the all-terminated check (C line 582). -/
def mid_state (s : SimState) : SimState :=
  dispatch_phase (resolve_phase (aging_phase (arrivals_phase (tick_clock s))))

/-- One simulated millisecond of the scheduler loop (C lines 485-599), with
the monitor's scan of the same tick appended: advance the clock, admit
arrivals, age and re-sort the ready queue, resolve a finished burst,
dispatch, and either raise the completion flag or let the I/O monitor run. -/
def scheduler_tick (s : SimState) : SimState :=
  if s.finished then s
  else
    if all_done (mid_state s) && (mid_state s).running.isNone then
      { mid_state s with finished := true }
    else ghost_phase (io_phase (mid_state s))

/-- Initial simulation state over a parsed process list: clock 0, all
containers empty except the pending records. -/
def init_state (ps : List Process) : SimState :=
  { pending := ps, ready := [], waiting := [], terminated_list := [],
    running := none, running_until := 0, clock := 0, last_aging_check := 0,
    finished := false, events := [] }

/-- The simulation after `n` ticks. -/
def run_sim (ps : List Process) : Nat → SimState
  | 0 => init_state ps
  | n + 1 => scheduler_tick (run_sim ps n)

/-- Process construction from one parsed input line (C lines 296-308):
remaining time starts at the full CPU demand, the original priority is
recorded, the record starts NEW and not arrived. -/
def mk_process (pid arrival cpu interval io pr : Int) : Process :=
  { pid := pid, arrival_time := arrival, cpu_execution_time := cpu,
    remaining_time := cpu, interval_time := interval, io_time := io,
    priority := pr, original_priority := pr, state := .NEW,
    time_in_ready_queue := 0, io_completion_time := 0, has_arrived := false,
    run_ticks := 0 }

/-- One raw input line: `blank` is true for lines of length at most one
(which the C parser skips); `fields` is the list of integers that
`sscanf "%d %d %d %d %d %d"` can convert from the start of the line
(conversion stops after six, so only the first six are ever used). -/
structure RawLine where
  blank : Bool
  fields : List Int
deriving DecidableEq, Repr

/-- C `parse_input_file`: fail when no non-blank line exists or when some
non-blank line yields fewer than six integers; otherwise build one process
per non-blank line from its first six fields.  No field value is
range-checked. -/
def parse_input_file (lines : List RawLine) : Option (List Process) :=
  let content := lines.filter (fun l => !l.blank)
  if content.length = 0 then none
  else if content.all (fun l => 6 ≤ l.fields.length) then
    some (content.map (fun l =>
      mk_process (l.fields.getD 0 0) (l.fields.getD 1 0) (l.fields.getD 2 0)
        (l.fields.getD 3 0) (l.fields.getD 4 0) (l.fields.getD 5 0)))
  else none

/-- C `main`: a parse failure yields no simulation at all; otherwise the
scheduler runs on the parsed processes. -/
def main_sim (lines : List RawLine) (fuel : Nat) : Option SimState :=
  (parse_input_file lines).map (fun ps => run_sim ps fuel)

/-- Timer reset performed by `insert_ready_queue` on the inserted record. -/
def timer_reset (p : Process) : Process := { p with time_in_ready_queue := 0 }

/-- Field updates applied to a record admitted by the arrival scan (arrival
marking, READY state, and the timer reset of the subsequent insertion). -/
def admit_mark (p : Process) : Process :=
  { p with has_arrived := true, state := ProcessState.READY, time_in_ready_queue := 0 }

/-- Field updates applied to a record migrated by the I/O monitor (READY
state, and the timer reset of the subsequent insertion). -/
def io_mark (p : Process) : Process :=
  { p with state := ProcessState.READY, time_in_ready_queue := 0 }

/-- Well-formed input: freshly constructed records (as `mk_process` builds
them) whose fields satisfy the documented input domains that matter for the
scheduling invariants: positive CPU demand, positive burst interval, and a
non-negative priority. -/
def WFInput (ps : List Process) : Prop :=
  ∀ p ∈ ps, p.state = ProcessState.NEW ∧ p.has_arrived = false ∧
    p.remaining_time = p.cpu_execution_time ∧ 0 < p.cpu_execution_time ∧
    0 < p.interval_time ∧ 0 ≤ p.priority ∧ p.original_priority = p.priority ∧
    p.run_ticks = 0

/-- Reachable-state invariant of the simulation on well-formed input. -/
structure SimInv (s : SimState) : Prop where
  clock_nonneg : 0 ≤ s.clock
  aging_sync : s.last_aging_check = s.clock
  rec_good : ∀ p ∈ allRecords s, 0 < p.interval_time ∧ 0 < p.cpu_execution_time ∧
    0 ≤ p.priority ∧ p.priority ≤ p.original_priority
  pend_inv : ∀ p ∈ s.pending, p.state = ProcessState.NEW ∧
    p.remaining_time = p.cpu_execution_time ∧ p.run_ticks = 0 ∧
    (s.clock < p.arrival_time ∨ s.clock = 0)
  ready_inv : ∀ p ∈ s.ready, p.state = ProcessState.READY ∧ 0 < p.remaining_time ∧
    p.run_ticks = p.cpu_execution_time - p.remaining_time
  wait_inv : ∀ p ∈ s.waiting, p.state = ProcessState.WAITING ∧ 0 < p.remaining_time ∧
    s.clock < p.io_completion_time ∧ p.run_ticks = p.cpu_execution_time - p.remaining_time
  run_inv : ∀ p ∈ s.running.toList, p.state = ProcessState.RUNNING ∧ 0 < p.remaining_time ∧
    s.clock < s.running_until ∧
    p.run_ticks = p.cpu_execution_time - p.remaining_time +
      (s.clock + 1 + min p.interval_time p.remaining_time - s.running_until)
  term_inv : ∀ p ∈ s.terminated_list, p.state = ProcessState.TERMINATED ∧
    p.remaining_time = 0 ∧ p.run_ticks = p.cpu_execution_time
  ready_sorted : s.ready.Pairwise le_key
  fin_inv : s.finished = true →
    s.pending = [] ∧ s.ready = [] ∧ s.waiting = [] ∧ s.running = none

/-- Domain facts about one record that every operation preserves: positive
burst interval, positive total demand, and a priority between 0 and the
original priority. -/
def rec_dom (p : Process) : Prop :=
  0 < p.interval_time ∧ 0 < p.cpu_execution_time ∧
  0 ≤ p.priority ∧ p.priority ≤ p.original_priority

/-- Invariant holding at the mid-tick all-terminated check: like `SimInv`
except that waiting-queue deadlines may already be due (the monitor scan of
the tick has not run yet) and the ghost Running-time counter of the slot
occupant has not been incremented for the current tick yet. -/
structure MidInv (s : SimState) : Prop where
  clock_pos : 0 < s.clock
  aging_sync : s.last_aging_check = s.clock
  rec_good : ∀ p ∈ allRecords s, 0 < p.interval_time ∧ 0 < p.cpu_execution_time ∧
    0 ≤ p.priority ∧ p.priority ≤ p.original_priority
  pend_inv : ∀ p ∈ s.pending, p.state = ProcessState.NEW ∧
    p.remaining_time = p.cpu_execution_time ∧ p.run_ticks = 0 ∧ s.clock < p.arrival_time
  ready_inv : ∀ p ∈ s.ready, p.state = ProcessState.READY ∧ 0 < p.remaining_time ∧
    p.run_ticks = p.cpu_execution_time - p.remaining_time
  wait_inv : ∀ p ∈ s.waiting, p.state = ProcessState.WAITING ∧ 0 < p.remaining_time ∧
    p.run_ticks = p.cpu_execution_time - p.remaining_time
  run_inv : ∀ p ∈ s.running.toList, p.state = ProcessState.RUNNING ∧ 0 < p.remaining_time ∧
    s.clock < s.running_until ∧
    p.run_ticks = p.cpu_execution_time - p.remaining_time +
      (s.clock + min p.interval_time p.remaining_time - s.running_until)
  term_inv : ∀ p ∈ s.terminated_list, p.state = ProcessState.TERMINATED ∧
    p.remaining_time = 0 ∧ p.run_ticks = p.cpu_execution_time
  ready_sorted : s.ready.Pairwise le_key

/-- Relation between a ready-queue resident after the arrival and aging
phases of a tick and the record it came from at the end of the previous
tick: every scheduling-relevant field is preserved except the priority,
which is either unchanged or the result of one aging step. -/
def ready_origin (x y : Process) : Prop :=
  x.pid = y.pid ∧ x.cpu_execution_time = y.cpu_execution_time ∧
  x.remaining_time = y.remaining_time ∧ x.interval_time = y.interval_time ∧
  x.io_time = y.io_time ∧ x.original_priority = y.original_priority ∧
  x.run_ticks = y.run_ticks ∧ x.state = ProcessState.READY ∧
  (x.priority = y.priority ∨ x.priority = (aging_record 1 y).priority)

/-- Cross-tick per-record evolution: the record keeps its identity and its
immutable fields, its remaining time never grows, and its priority either
stays or takes one aging step (so it never grows either). -/
def tracks (x y : Process) : Prop :=
  x.pid = y.pid ∧
  x.cpu_execution_time = y.cpu_execution_time ∧ x.interval_time = y.interval_time ∧
  x.io_time = y.io_time ∧ x.original_priority = y.original_priority ∧
  x.remaining_time ≤ y.remaining_time ∧ x.priority ≤ y.priority ∧
  (x.priority = y.priority ∨ x.priority = (aging_record 1 y).priority)

/-- Worst-case number of future ticks attributable to a record sitting in
the ready queue with `r` ms of remaining demand (burst interval `v`, I/O
duration `w`): one tick to resolve each burst of `min v r` ms, plus the
I/O round trip before the next burst.  Used as a termination measure. -/
def readyPot (v w : Nat) : Nat → Nat
  | 0 => 0
  | r + 1 =>
    min (max 1 v) (r + 1) + 1 +
      (if r + 1 - min (max 1 v) (r + 1) = 0 then 0
       else w + 1 + readyPot v w (r + 1 - min (max 1 v) (r + 1)))
termination_by r => r
decreasing_by
  simp_wf

/-- Future ticks of a running record after its current burst resolves. -/
def runTail (p : Process) : Nat :=
  if p.remaining_time ≤ p.interval_time then 0
  else p.io_time.toNat + 1 +
    readyPot p.interval_time.toNat p.io_time.toNat (p.remaining_time - p.interval_time).toNat

/-- Termination potential of a ready-queue resident. -/
def readyRecPot (p : Process) : Nat :=
  readyPot p.interval_time.toNat p.io_time.toNat p.remaining_time.toNat

/-- Termination potential of a not-yet-arrived record. -/
def pendPot (clock : Int) (p : Process) : Nat :=
  (p.arrival_time - clock).toNat + 1 + readyRecPot p

/-- Termination potential of a waiting (blocked for I/O) record. -/
def waitPot (clock : Int) (p : Process) : Nat :=
  (p.io_completion_time - clock).toNat + 1 + readyRecPot p

/-- Termination potential of the running record with burst deadline `u`. -/
def runPot (clock u : Int) (p : Process) : Nat :=
  (u - clock).toNat + runTail p

/-- Global termination measure: it strictly decreases on every tick that
does not raise the completion flag. -/
def simMeasure (s : SimState) : Nat :=
  (s.pending.map (pendPot s.clock)).sum + (s.ready.map readyRecPot).sum +
  (s.waiting.map (waitPot s.clock)).sum +
  (s.running.toList.map (runPot s.clock s.running_until)).sum

/-- The record of the single-record test scenario:
`(pid=1, arrival=0, cpu=300, interval=100, io=50, priority=2)`. -/
def scenario_record : Process := mk_process 1 0 300 100 50 2

/-- First record of the aging example: priority 5, 100 ms remaining. -/
def agingA : Process := mk_process 1 0 100 10 10 5

/-- Second record of the aging example: priority 5, 200 ms remaining. -/
def agingB : Process := mk_process 2 0 200 10 10 5

/-- A small well-formed input used to instantiate the general theorems:
one record with 2 ms of CPU demand and a 1 ms burst interval. -/
def wit_input : List Process := [mk_process 1 0 2 1 1 1]

/-- The record occupying the running slot after one tick on `wit_input`. -/
def wit_running : Process :=
  { pid := 1, arrival_time := 0, cpu_execution_time := 2, remaining_time := 2,
    interval_time := 1, io_time := 1, priority := 1, original_priority := 1,
    state := ProcessState.RUNNING, time_in_ready_queue := 1,
    io_completion_time := 0, has_arrived := true, run_ticks := 1 }

/-- An input line whose six integers violate every documented field domain
(negative arrival, zero CPU demand, priority outside [0,10]). -/
def bad_line : RawLine := ⟨false, [1, -5, 0, 100, 50, 99]⟩

/-- The process the parser constructs from `bad_line`. -/
def bad_record : Process := mk_process 1 (-5) 0 100 50 99

/-- C1: evaluation of the code at the failing input.  Aging two ready
residents by 150 ms leaves both with the retained remainder 50 in their
accumulated-ready-time and priority decremented to 4; but the mandated
reorder (`resort_ready_queue`) re-inserts every record through
`insert_ready_queue`, which resets the accumulated-ready-time to 0, so the
retained remainder is destroyed whenever at least two records are resident.
With a single resident the early exit of `resort_ready_queue` lets the
remainder survive, as the claim demands for any number of residents. -/
theorem aging_remainder_lost_on_resort :
    (update_aging 150 [agingA, agingB]).map (fun p => (p.time_in_ready_queue, p.priority)) =
      [(50, 4), (50, 4)]
    ∧ (resort_ready_queue (update_aging 150 [agingA, agingB])).map
        (fun p => (p.time_in_ready_queue, p.priority)) = [(0, 4), (0, 4)]
    ∧ (resort_ready_queue (update_aging 150 [agingA])).map
        (fun p => (p.time_in_ready_queue, p.priority)) = [(50, 4)] := by
  decide

set_option maxRecDepth 100000 in
/-- C4: the single-record scenario `(pid=1, arrival=0, cpu=300,
interval=100, io=50, priority=2)`.  The run dispatches at tick 1 for a
100 ms burst, blocks for 50 ms of I/O at tick 101, returns the record to
ready at tick 151, dispatches again at ticks 152 and 303, terminates at
tick 403 when the third 100 ms burst has consumed the 300 ms of demand, and
ends with exactly 2 I/O blocks and exactly 3 dispatches. -/
theorem single_record_scenario :
    (run_sim [scenario_record] 403).events =
      [Event.arrived 1 1, Event.movedToReady 1 1, Event.dispatched 1 1 2 300 100,
       Event.blocked 101 1 50, Event.ioFinished 151 1, Event.movedToReady 151 1,
       Event.dispatched 152 1 2 200 100, Event.blocked 252 1 50,
       Event.ioFinished 302 1, Event.movedToReady 302 1,
       Event.dispatched 303 1 2 100 100, Event.terminatedEv 403 1]
    ∧ (run_sim [scenario_record] 403).finished = true
    ∧ (run_sim [scenario_record] 402).finished = false
    ∧ (run_sim [scenario_record] 403).events.countP
        (fun e => match e with | Event.blocked _ _ _ => true | _ => false) = 2
    ∧ (run_sim [scenario_record] 403).events.countP
        (fun e => match e with | Event.dispatched _ _ _ _ _ => true | _ => false) = 3 := by
  decide

/-- C9: an input with no non-blank line is rejected by the parser and the
program produces no simulation state at all, for any amount of fuel. -/
theorem empty_input_rejected (lines : List RawLine)
    (h : (lines.filter (fun l => !l.blank)).length = 0) :
    parse_input_file lines = none ∧ ∀ fuel, main_sim lines fuel = none := by
  have hp : parse_input_file lines = none := by
    unfold parse_input_file
    simp only [h, if_pos]
  exact ⟨hp, fun fuel => by unfold main_sim; rw [hp]; rfl⟩

/-- Witness for C9 at the concrete empty input. -/
theorem empty_input_rejected_w : parse_input_file [] = none :=
  (empty_input_rejected [] rfl).1

/-- C10: a line whose six integers violate every documented domain
(arrival −5, CPU demand 0, priority 99) is accepted by the parser, which
checks only that six integers are present, and the simulation starts and
even dispatches the record carrying the out-of-range values. -/
theorem out_of_range_fields_accepted :
    parse_input_file [bad_line] = some [bad_record]
    ∧ bad_record.arrival_time < 0
    ∧ bad_record.cpu_execution_time = 0
    ∧ 10 < bad_record.priority
    ∧ (main_sim [bad_line] 1).isSome = true
    ∧ (run_sim [bad_record] 1).running =
        some { bad_record with state := ProcessState.RUNNING, has_arrived := true,
                               time_in_ready_queue := 1, run_ticks := 1 } := by
  decide

/-- The strict key order is asymmetric. -/
theorem lt_key_asymm {p c : Process} (h : lt_key p c) : ¬ lt_key c p := by
  unfold lt_key at *; omega

/-- The non-strict key order is transitive. -/
theorem le_key_trans {a b c : Process} (h1 : le_key a b) (h2 : le_key b c) : le_key a c := by
  unfold le_key lt_key at *; omega

/-- The insertion walk produces a permutation of consing the new record. -/
theorem insert_sorted_perm (p : Process) (q : List Process) :
    (insert_sorted p q).Perm (p :: q) := by
  induction q with
  | nil => exact List.Perm.refl _
  | cons c rest ih =>
    unfold insert_sorted
    split
    · exact List.Perm.refl _
    · exact (ih.cons c).trans (List.Perm.swap p c rest)

/-- Membership after the insertion walk. -/
theorem insert_sorted_mem {a p : Process} {q : List Process} :
    a ∈ insert_sorted p q ↔ a = p ∨ a ∈ q := by
  rw [(insert_sorted_perm p q).mem_iff]; simp

/-- The insertion walk preserves the Priority-SRTF order. -/
theorem insert_sorted_sorted {q : List Process} (p : Process) (h : q.Pairwise le_key) :
    (insert_sorted p q).Pairwise le_key := by
  induction q with
  | nil => simp [insert_sorted]
  | cons c rest ih =>
    rcases List.pairwise_cons.mp h with ⟨hc, hrest⟩
    unfold insert_sorted
    split
    next hlt =>
      refine List.pairwise_cons.mpr ⟨?_, h⟩
      intro x hx
      rcases List.mem_cons.mp hx with rfl | hx
      · exact lt_key_asymm hlt
      · exact le_key_trans (lt_key_asymm hlt) (hc x hx)
    next hnlt =>
      refine List.pairwise_cons.mpr ⟨?_, ih hrest⟩
      intro x hx
      rcases insert_sorted_mem.mp hx with rfl | hx
      · exact hnlt
      · exact hc x hx

/-- `insert_ready_queue` as a permutation: the timer-reset record joins the
queue. -/
theorem insert_ready_queue_perm (q : List Process) (p : Process) :
    (insert_ready_queue q p).Perm (timer_reset p :: q) :=
  insert_sorted_perm _ q

/-- `insert_ready_queue` preserves the Priority-SRTF order. -/
theorem insert_ready_queue_sorted (q : List Process) (p : Process)
    (h : q.Pairwise le_key) : (insert_ready_queue q p).Pairwise le_key :=
  insert_sorted_sorted _ h

/-- Repeated re-insertion keeps the accumulator ordered. -/
theorem foldl_insert_sorted (q : List Process) :
    ∀ acc : List Process, acc.Pairwise le_key →
      (q.foldl insert_ready_queue acc).Pairwise le_key := by
  induction q with
  | nil => exact fun acc h => h
  | cons p rest ih => exact fun acc h => ih _ (insert_ready_queue_sorted acc p h)

/-- Repeated re-insertion accumulates the timer-reset records. -/
theorem foldl_insert_perm (q : List Process) :
    ∀ acc : List Process,
      (q.foldl insert_ready_queue acc).Perm (acc ++ q.map timer_reset) := by
  induction q with
  | nil => intro acc; simp
  | cons p rest ih =>
    intro acc
    have h1 : (rest.foldl insert_ready_queue (insert_ready_queue acc p)).Perm
        (insert_ready_queue acc p ++ rest.map timer_reset) := ih _
    have h2 : (insert_ready_queue acc p ++ rest.map timer_reset).Perm
        ((timer_reset p :: acc) ++ rest.map timer_reset) :=
      (insert_ready_queue_perm acc p).append_right _
    have h3 : ((timer_reset p :: acc) ++ rest.map timer_reset).Perm
        (acc ++ timer_reset p :: rest.map timer_reset) := List.perm_middle.symm
    simpa using (h1.trans h2).trans h3

/-- `resort_ready_queue` always yields a Priority-SRTF-ordered queue. -/
theorem resort_sorted (q : List Process) :
    (resort_ready_queue q).Pairwise le_key := by
  unfold resort_ready_queue
  split
  next h =>
    rcases q with _ | ⟨a, _ | ⟨b, t⟩⟩
    · simp
    · simp
    · simp at h
  next => exact foldl_insert_sorted q [] (by simp)

/-- `resort_ready_queue` either leaves a short queue untouched or permutes
the timer-reset residents. -/
theorem resort_cases (q : List Process) :
    (resort_ready_queue q = q ∧ q.length ≤ 1)
    ∨ (resort_ready_queue q).Perm (q.map timer_reset) := by
  unfold resort_ready_queue
  split
  next h => exact Or.inl ⟨rfl, h⟩
  next => exact Or.inr (by simpa using foldl_insert_perm q [])

/-- The arrival scan leaves exactly the not-yet-due records pending, in
order. -/
theorem arrivals_go_pending (c : Int) (pd : List Process) :
    ∀ rd ev, (arrivals_go c pd rd ev).1 =
      pd.filter (fun p => decide (c < p.arrival_time)) := by
  induction pd with
  | nil => intro rd ev; rfl
  | cons p rest ih =>
    intro rd ev
    unfold arrivals_go
    split
    next h =>
      rw [ih]
      simp [List.filter_cons, show ¬ (c < p.arrival_time) from not_lt.mpr h]
    next h =>
      dsimp only
      rw [ih]
      simp [List.filter_cons, not_le.mp h]

/-- The arrival scan inserts exactly the due records, admission-marked,
into the ready queue. -/
theorem arrivals_go_ready_perm (c : Int) (pd : List Process) :
    ∀ rd ev, ((arrivals_go c pd rd ev).2.1).Perm
      (rd ++ (pd.filter (fun p => decide (p.arrival_time ≤ c))).map admit_mark) := by
  induction pd with
  | nil => intro rd ev; simp [arrivals_go]
  | cons p rest ih =>
    intro rd ev
    unfold arrivals_go
    split
    next h =>
      refine (ih _ _).trans ?_
      have h2 : (insert_ready_queue rd { p with has_arrived := true, state := .READY } ++
          (rest.filter (fun p => decide (p.arrival_time ≤ c))).map admit_mark).Perm
          ((admit_mark p :: rd) ++
            (rest.filter (fun p => decide (p.arrival_time ≤ c))).map admit_mark) :=
        (insert_ready_queue_perm rd _).append_right _
      refine h2.trans ?_
      rw [List.filter_cons, if_pos (by simpa using h)]
      simpa using List.perm_middle.symm
    next h =>
      dsimp only
      refine (ih _ _).trans ?_
      rw [List.filter_cons, if_neg (by simpa using h)]

/-- The arrival scan preserves the order of the ready queue. -/
theorem arrivals_go_sorted (c : Int) (pd : List Process) :
    ∀ rd ev, rd.Pairwise le_key → ((arrivals_go c pd rd ev).2.1).Pairwise le_key := by
  induction pd with
  | nil => exact fun rd ev h => h
  | cons p rest ih =>
    intro rd ev h
    unfold arrivals_go
    split
    next => exact ih _ _ (insert_ready_queue_sorted _ _ h)
    next => dsimp only; exact ih _ _ h

/-- The monitor scan keeps exactly the records whose deadline is still in
the future, in order. -/
theorem io_scan_waiting (c : Int) (wt : List Process) :
    ∀ rd ev, (io_scan c wt rd ev).1 =
      wt.filter (fun p => decide (c < p.io_completion_time)) := by
  induction wt with
  | nil => intro rd ev; rfl
  | cons p rest ih =>
    intro rd ev
    unfold io_scan
    split
    next h =>
      rw [ih]
      simp [List.filter_cons, show ¬ (c < p.io_completion_time) from not_lt.mpr h]
    next h =>
      dsimp only
      rw [ih]
      simp [List.filter_cons, not_le.mp (fun hh => h hh)]

/-- The monitor scan inserts exactly the expired records, marked READY,
into the ready queue. -/
theorem io_scan_ready_perm (c : Int) (wt : List Process) :
    ∀ rd ev, ((io_scan c wt rd ev).2.1).Perm
      (rd ++ (wt.filter (fun p => decide (p.io_completion_time ≤ c))).map io_mark) := by
  induction wt with
  | nil => intro rd ev; simp [io_scan]
  | cons p rest ih =>
    intro rd ev
    unfold io_scan
    split
    next h =>
      refine (ih _ _).trans ?_
      have h2 : (insert_ready_queue rd { p with state := .READY } ++
          (rest.filter (fun p => decide (p.io_completion_time ≤ c))).map io_mark).Perm
          ((io_mark p :: rd) ++
            (rest.filter (fun p => decide (p.io_completion_time ≤ c))).map io_mark) :=
        (insert_ready_queue_perm rd _).append_right _
      refine h2.trans ?_
      rw [List.filter_cons, if_pos (by simpa using h)]
      simpa using List.perm_middle.symm
    next h =>
      dsimp only
      refine (ih _ _).trans ?_
      rw [List.filter_cons, if_neg (by simpa using h)]

/-- The monitor scan preserves the order of the ready queue. -/
theorem io_scan_sorted (c : Int) (wt : List Process) :
    ∀ rd ev, rd.Pairwise le_key → ((io_scan c wt rd ev).2.1).Pairwise le_key := by
  induction wt with
  | nil => exact fun rd ev h => h
  | cons p rest ih =>
    intro rd ev h
    unfold io_scan
    split
    next => exact ih _ _ (insert_ready_queue_sorted _ _ h)
    next => dsimp only; exact ih _ _ h

/-- Fields of the state untouched by the arrival phase. -/
theorem arrivals_phase_same (s : SimState) :
    (arrivals_phase s).waiting = s.waiting ∧
    (arrivals_phase s).terminated_list = s.terminated_list ∧
    (arrivals_phase s).running = s.running ∧
    (arrivals_phase s).running_until = s.running_until ∧
    (arrivals_phase s).clock = s.clock ∧
    (arrivals_phase s).last_aging_check = s.last_aging_check ∧
    (arrivals_phase s).finished = s.finished :=
  ⟨rfl, rfl, rfl, rfl, rfl, rfl, rfl⟩

/-- Containers produced by the arrival phase. -/
theorem arrivals_phase_pending (s : SimState) :
    (arrivals_phase s).pending = (arrivals_go s.clock s.pending s.ready s.events).1 := rfl

/-- Ready queue produced by the arrival phase. -/
theorem arrivals_phase_ready (s : SimState) :
    (arrivals_phase s).ready = (arrivals_go s.clock s.pending s.ready s.events).2.1 := rfl

/-- Fields of the state untouched by the aging phase. -/
theorem aging_phase_same (s : SimState) :
    (aging_phase s).pending = s.pending ∧
    (aging_phase s).waiting = s.waiting ∧
    (aging_phase s).terminated_list = s.terminated_list ∧
    (aging_phase s).running = s.running ∧
    (aging_phase s).running_until = s.running_until ∧
    (aging_phase s).clock = s.clock ∧
    (aging_phase s).finished = s.finished ∧
    (aging_phase s).events = s.events := by
  unfold aging_phase; split <;> exact ⟨rfl, rfl, rfl, rfl, rfl, rfl, rfl, rfl⟩

/-- When the clock has moved past the last aging check the aging phase ages
and re-sorts the ready queue and records the check time. -/
theorem aging_phase_run {s : SimState} (h : s.last_aging_check < s.clock) :
    aging_phase s =
      { s with ready := resort_ready_queue (update_aging (s.clock - s.last_aging_check) s.ready),
               last_aging_check := s.clock } := by
  unfold aging_phase; rw [if_pos h]

/-- Fields of the state untouched by burst resolution. -/
theorem resolve_phase_same (s : SimState) :
    (resolve_phase s).pending = s.pending ∧
    (resolve_phase s).ready = s.ready ∧
    (resolve_phase s).running_until = s.running_until ∧
    (resolve_phase s).clock = s.clock ∧
    (resolve_phase s).last_aging_check = s.last_aging_check ∧
    (resolve_phase s).finished = s.finished := by
  unfold resolve_phase
  split
  · exact ⟨rfl, rfl, rfl, rfl, rfl, rfl⟩
  · dsimp only
    repeat' split
    all_goals exact ⟨rfl, rfl, rfl, rfl, rfl, rfl⟩

/-- Fields of the state untouched by dispatch. -/
theorem dispatch_phase_same (s : SimState) :
    (dispatch_phase s).pending = s.pending ∧
    (dispatch_phase s).waiting = s.waiting ∧
    (dispatch_phase s).terminated_list = s.terminated_list ∧
    (dispatch_phase s).clock = s.clock ∧
    (dispatch_phase s).last_aging_check = s.last_aging_check ∧
    (dispatch_phase s).finished = s.finished := by
  unfold dispatch_phase
  split
  · exact ⟨rfl, rfl, rfl, rfl, rfl, rfl⟩
  · split
    · exact ⟨rfl, rfl, rfl, rfl, rfl, rfl⟩
    · exact ⟨rfl, rfl, rfl, rfl, rfl, rfl⟩

/-- Fields of the state untouched by the monitor phase. -/
theorem io_phase_same (s : SimState) :
    (io_phase s).pending = s.pending ∧
    (io_phase s).terminated_list = s.terminated_list ∧
    (io_phase s).running = s.running ∧
    (io_phase s).running_until = s.running_until ∧
    (io_phase s).clock = s.clock ∧
    (io_phase s).last_aging_check = s.last_aging_check ∧
    (io_phase s).finished = s.finished :=
  ⟨rfl, rfl, rfl, rfl, rfl, rfl, rfl⟩

/-- Containers produced by the monitor phase. -/
theorem io_phase_waiting (s : SimState) :
    (io_phase s).waiting = (io_scan s.clock s.waiting s.ready s.events).1 := rfl

/-- Ready queue produced by the monitor phase. -/
theorem io_phase_ready (s : SimState) :
    (io_phase s).ready = (io_scan s.clock s.waiting s.ready s.events).2.1 := rfl

/-- Fields of the state untouched by the ghost bookkeeping. -/
theorem ghost_phase_same (s : SimState) :
    (ghost_phase s).pending = s.pending ∧
    (ghost_phase s).ready = s.ready ∧
    (ghost_phase s).waiting = s.waiting ∧
    (ghost_phase s).terminated_list = s.terminated_list ∧
    (ghost_phase s).running_until = s.running_until ∧
    (ghost_phase s).clock = s.clock ∧
    (ghost_phase s).last_aging_check = s.last_aging_check ∧
    (ghost_phase s).finished = s.finished :=
  ⟨rfl, rfl, rfl, rfl, rfl, rfl, rfl, rfl⟩

/-- A finished state is a fixed point of the scheduler. -/
theorem scheduler_tick_fix {s : SimState} (h : s.finished = true) :
    scheduler_tick s = s := by
  unfold scheduler_tick; rw [if_pos h]

/-- An unfinished tick either raises the completion flag on the mid-tick
state or lets the monitor and ghost bookkeeping run on it. -/
theorem scheduler_tick_go {s : SimState} (h : s.finished = false) :
    scheduler_tick s =
      if all_done (mid_state s) && (mid_state s).running.isNone then
        { mid_state s with finished := true }
      else ghost_phase (io_phase (mid_state s)) := by
  unfold scheduler_tick; rw [if_neg (by simp [h])]

/-- Removing the head (or doing nothing) keeps the ready queue ordered. -/
theorem dispatch_ready_sorted {s : SimState} (h : s.ready.Pairwise le_key) :
    ((dispatch_phase s).ready).Pairwise le_key := by
  unfold dispatch_phase
  split
  · exact h
  · split
    next => exact h
    next p rest hr =>
      rw [hr] at h
      exact (List.pairwise_cons.mp h).2

/-- The ready queue stays Priority-SRTF-ordered across every tick. -/
theorem tick_ready_sorted {s : SimState} (h : s.ready.Pairwise le_key) :
    ((scheduler_tick s).ready).Pairwise le_key := by
  have hmid : ((mid_state s).ready).Pairwise le_key := by
    unfold mid_state
    have h1 : ((arrivals_phase (tick_clock s)).ready).Pairwise le_key :=
      arrivals_go_sorted _ _ _ _ h
    have h2 : ((aging_phase (arrivals_phase (tick_clock s))).ready).Pairwise le_key := by
      unfold aging_phase
      split
      · exact resort_sorted _
      · exact h1
    have h3 : ((resolve_phase (aging_phase (arrivals_phase (tick_clock s)))).ready).Pairwise
        le_key := by
      rw [(resolve_phase_same _).2.1]
      exact h2
    exact dispatch_ready_sorted h3
  by_cases hf : s.finished = true
  · rw [scheduler_tick_fix hf]; exact h
  · rw [scheduler_tick_go (Bool.not_eq_true _ ▸ hf)]
    split
    · exact hmid
    · rw [(ghost_phase_same _).2.1, io_phase_ready]
      exact io_scan_sorted _ _ _ _ hmid

/-- C2: the Priority-SRTF ordering invariant of the Ready Container.  In
the `Pairwise le_key` statement, `le_key a b` says that `b` does not
strictly precede `a`, so for any two simultaneously resident records the
one with strictly lower priority (or, on equal priorities, strictly lower
remaining time) comes first.  The order is preserved by every
`insert_ready_queue`, re-established by every `resort_ready_queue`, and
holds in every reachable state of the simulation. -/
theorem ready_queue_priority_srtf_order :
    (∀ (q : List Process) (p : Process), q.Pairwise le_key →
        (insert_ready_queue q p).Pairwise le_key)
    ∧ (∀ q : List Process, (resort_ready_queue q).Pairwise le_key)
    ∧ (∀ (ps : List Process) (n : Nat), ((run_sim ps n).ready).Pairwise le_key) := by
  refine ⟨insert_ready_queue_sorted, resort_sorted, ?_⟩
  intro ps n
  induction n with
  | zero => simp [run_sim, init_state]
  | succ n ih => exact tick_ready_sorted ih

/-- Witness for C2: the ordering facts instantiated on a concrete queue and
a concrete run. -/
theorem ready_queue_priority_srtf_order_w :
    (insert_ready_queue [agingA] agingB).Pairwise le_key :=
  ready_queue_priority_srtf_order.1 [agingA] agingB (List.pairwise_singleton _ _)

/-- Aging never changes the identity of a record. -/
theorem aging_record_pid (e : Int) (p : Process) : (aging_record e p).pid = p.pid := by
  unfold aging_record; dsimp only; split <;> rfl

/-- Aging never changes the arrival time. -/
theorem aging_record_arrival (e : Int) (p : Process) :
    (aging_record e p).arrival_time = p.arrival_time := by
  unfold aging_record; dsimp only; split <;> rfl

/-- Aging never changes the total CPU demand. -/
theorem aging_record_cpu (e : Int) (p : Process) :
    (aging_record e p).cpu_execution_time = p.cpu_execution_time := by
  unfold aging_record; dsimp only; split <;> rfl

/-- Aging never changes the remaining CPU time. -/
theorem aging_record_remaining (e : Int) (p : Process) :
    (aging_record e p).remaining_time = p.remaining_time := by
  unfold aging_record; dsimp only; split <;> rfl

/-- Aging never changes the burst interval. -/
theorem aging_record_interval (e : Int) (p : Process) :
    (aging_record e p).interval_time = p.interval_time := by
  unfold aging_record; dsimp only; split <;> rfl

/-- Aging never changes the I/O duration. -/
theorem aging_record_io (e : Int) (p : Process) : (aging_record e p).io_time = p.io_time := by
  unfold aging_record; dsimp only; split <;> rfl

/-- Aging never changes the original priority. -/
theorem aging_record_original (e : Int) (p : Process) :
    (aging_record e p).original_priority = p.original_priority := by
  unfold aging_record; dsimp only; split <;> rfl

/-- Aging never changes the lifecycle state. -/
theorem aging_record_state (e : Int) (p : Process) : (aging_record e p).state = p.state := by
  unfold aging_record; dsimp only; split <;> rfl

/-- Aging never changes the I/O completion deadline. -/
theorem aging_record_ioc (e : Int) (p : Process) :
    (aging_record e p).io_completion_time = p.io_completion_time := by
  unfold aging_record; dsimp only; split <;> rfl

/-- Aging never changes the arrival flag. -/
theorem aging_record_arrflag (e : Int) (p : Process) :
    (aging_record e p).has_arrived = p.has_arrived := by
  unfold aging_record; dsimp only; split <;> rfl

/-- Aging never changes the ghost Running-time counter. -/
theorem aging_record_rt (e : Int) (p : Process) :
    (aging_record e p).run_ticks = p.run_ticks := by
  unfold aging_record; dsimp only; split <;> rfl

/-- Aging never increases the priority. -/
theorem aging_record_pr_le (e : Int) (p : Process) :
    (aging_record e p).priority ≤ p.priority := by
  unfold aging_record; dsimp only
  repeat' split
  all_goals dsimp only
  all_goals omega

/-- Aging keeps a non-negative priority non-negative. -/
theorem aging_record_pr_nonneg (e : Int) (p : Process) (h : 0 ≤ p.priority) :
    0 ≤ (aging_record e p).priority := by
  unfold aging_record; dsimp only
  repeat' split
  all_goals dsimp only
  all_goals omega

/-- Aging below the 100 ms threshold only accumulates the timer. -/
theorem aging_record_keep (e : Int) (p : Process)
    (h : p.time_in_ready_queue + e < 100) :
    aging_record e p = { p with time_in_ready_queue := p.time_in_ready_queue + e } := by
  unfold aging_record; dsimp only
  rw [if_neg (by omega)]

/-- The state after the clock advance, arrival scan and aging pass of one
tick, written out explicitly (the elapsed aging time is always exactly one
millisecond because the previous tick left `last_aging_check` at the
previous clock value). -/
theorem phaseA_eq {s : SimState} (hs : SimInv s) :
    aging_phase (arrivals_phase (tick_clock s)) =
      { s with clock := s.clock + 1, last_aging_check := s.clock + 1,
               pending := (arrivals_go (s.clock + 1) s.pending s.ready s.events).1,
               ready := resort_ready_queue (update_aging 1
                 ((arrivals_go (s.clock + 1) s.pending s.ready s.events).2.1)),
               events := (arrivals_go (s.clock + 1) s.pending s.ready s.events).2.2 } := by
  have ht1 : arrivals_phase (tick_clock s) =
      { s with clock := s.clock + 1,
               pending := (arrivals_go (s.clock + 1) s.pending s.ready s.events).1,
               ready := (arrivals_go (s.clock + 1) s.pending s.ready s.events).2.1,
               events := (arrivals_go (s.clock + 1) s.pending s.ready s.events).2.2 } := rfl
  rw [ht1, aging_phase_run (by dsimp only; rw [hs.aging_sync]; omega)]
  dsimp only
  rw [hs.aging_sync]
  have he : s.clock + 1 - s.clock = (1 : Int) := by omega
  rw [he]

/-- An aged (and possibly timer-reset) ready resident keeps every
scheduling-relevant field of its source record. -/
theorem ready_origin_of_aged {y : Process} (hstate : y.state = ProcessState.READY) :
    ready_origin (aging_record 1 y) y ∧ ready_origin (timer_reset (aging_record 1 y)) y := by
  unfold ready_origin
  refine ⟨⟨aging_record_pid 1 y, aging_record_cpu 1 y, aging_record_remaining 1 y,
      aging_record_interval 1 y, aging_record_io 1 y, aging_record_original 1 y,
      aging_record_rt 1 y, by rw [aging_record_state]; exact hstate, Or.inr rfl⟩,
    ⟨aging_record_pid 1 y, aging_record_cpu 1 y, aging_record_remaining 1 y,
      aging_record_interval 1 y, aging_record_io 1 y, aging_record_original 1 y,
      aging_record_rt 1 y, by rw [show (timer_reset (aging_record 1 y)).state =
        (aging_record 1 y).state from rfl, aging_record_state]; exact hstate, Or.inr rfl⟩⟩

/-- A freshly admitted (and aged, and possibly timer-reset) ready resident
keeps every scheduling-relevant field, including its priority: the aging
step right after admission starts from a reset timer and cannot reach the
100 ms threshold. -/
theorem ready_origin_of_admission (y : Process) :
    ready_origin (aging_record 1 (admit_mark y)) y ∧
    ready_origin (timer_reset (aging_record 1 (admit_mark y))) y := by
  have hk : aging_record 1 (admit_mark y) =
      { admit_mark y with
        time_in_ready_queue := (admit_mark y).time_in_ready_queue + 1 } :=
    aging_record_keep 1 (admit_mark y) (by norm_num [admit_mark])
  rw [hk]
  unfold ready_origin admit_mark timer_reset
  dsimp only
  exact ⟨⟨rfl, rfl, rfl, rfl, rfl, rfl, rfl, rfl, Or.inl rfl⟩,
    ⟨rfl, rfl, rfl, rfl, rfl, rfl, rfl, rfl, Or.inl rfl⟩⟩

/-- Provenance of every ready resident after the arrival and aging phases:
it descends from an end-of-previous-tick ready resident or from a pending
record whose arrival time is due, with all scheduling-relevant fields
related by `ready_origin`. -/
theorem phaseA_ready_origin {s : SimState} (hs : SimInv s) :
    ∀ x ∈ (aging_phase (arrivals_phase (tick_clock s))).ready,
      ∃ y, (y ∈ s.ready ∨ (y ∈ s.pending ∧ y.arrival_time ≤ s.clock + 1)) ∧
        ready_origin x y := by
  rw [phaseA_eq hs]
  dsimp only
  intro x hx
  have horig : ∀ z, z ∈ (arrivals_go (s.clock + 1) s.pending s.ready s.events).2.1 →
      ∃ y, (y ∈ s.ready ∧ z = y) ∨
        (y ∈ s.pending ∧ y.arrival_time ≤ s.clock + 1 ∧ z = admit_mark y) := by
    intro z hz
    have hmem := (arrivals_go_ready_perm (s.clock + 1) s.pending s.ready s.events).mem_iff.mp hz
    rw [List.mem_append] at hmem
    rcases hmem with hz1 | hz2
    · exact ⟨z, Or.inl ⟨hz1, rfl⟩⟩
    · rcases List.mem_map.mp hz2 with ⟨y, hy, rfl⟩
      rcases List.mem_filter.mp hy with ⟨hyp, hdec⟩
      exact ⟨y, Or.inr ⟨hyp, by simpa using hdec, rfl⟩⟩
  rcases resort_cases
      (update_aging 1 (arrivals_go (s.clock + 1) s.pending s.ready s.events).2.1) with
    ⟨heq, _⟩ | hperm2
  · rw [heq] at hx
    rcases List.mem_map.mp hx with ⟨z, hz, rfl⟩
    rcases horig z hz with ⟨y, ⟨hy1, rfl⟩ | ⟨hy1, hy2, rfl⟩⟩
    · exact ⟨z, Or.inl hy1, (ready_origin_of_aged (hs.ready_inv z hy1).1).1⟩
    · exact ⟨y, Or.inr ⟨hy1, hy2⟩, (ready_origin_of_admission y).1⟩
  · have hx2 := hperm2.mem_iff.mp hx
    rcases List.mem_map.mp hx2 with ⟨w, hw, rfl⟩
    rcases List.mem_map.mp hw with ⟨z, hz, rfl⟩
    rcases horig z hz with ⟨y, ⟨hy1, rfl⟩ | ⟨hy1, hy2, rfl⟩⟩
    · exact ⟨z, Or.inl hy1, (ready_origin_of_aged (hs.ready_inv z hy1).1).2⟩
    · exact ⟨y, Or.inr ⟨hy1, hy2⟩, (ready_origin_of_admission y).2⟩

/-- Burst resolution does nothing when the slot is empty. -/
theorem resolve_phase_none {s : SimState} (h : s.running = none) :
    resolve_phase s = s := by
  unfold resolve_phase; rw [h]

/-- Burst resolution does nothing before the burst deadline. -/
theorem resolve_phase_skip {s : SimState} {p : Process} (h : s.running = some p)
    (hc : ¬ s.clock ≥ s.running_until) : resolve_phase s = s := by
  unfold resolve_phase; rw [h]; dsimp only; rw [if_neg hc]

/-- Burst resolution exactly at the deadline: the clock-derived burst
length evaluates to the interval, the clamp turns it into
`min interval remaining`, and the record terminates when the burst covers
all remaining work, otherwise it blocks for I/O. -/
theorem resolve_phase_at_deadline {s : SimState} {p : Process} (h : s.running = some p)
    (hc : s.clock = s.running_until) :
    resolve_phase s =
      if p.remaining_time ≤ p.interval_time then
        { s with running := none,
                 terminated_list := s.terminated_list ++
                   [{ p with
                      remaining_time :=
                        p.remaining_time - min p.interval_time p.remaining_time,
                      state := ProcessState.TERMINATED }],
                 events := s.events ++ [.terminatedEv s.clock p.pid] }
      else
        { s with running := none,
                 waiting := s.waiting ++
                   [{ p with
                      remaining_time :=
                        p.remaining_time - min p.interval_time p.remaining_time,
                      state := ProcessState.WAITING,
                      io_completion_time := s.clock + p.io_time }],
                 events := s.events ++ [.blocked s.clock p.pid p.io_time] } := by
  unfold resolve_phase
  rw [h]
  dsimp only
  rw [if_pos (ge_of_eq hc)]
  have hbt0 : s.clock - (s.running_until - p.interval_time) = p.interval_time := by omega
  rw [hbt0]
  have hbt : (if p.interval_time > p.remaining_time then p.remaining_time
      else p.interval_time) = min p.interval_time p.remaining_time := by
    split <;> omega
  rw [hbt]
  have hcond : (p.remaining_time - min p.interval_time p.remaining_time ≤ 0) =
      (p.remaining_time ≤ p.interval_time) := by
    apply propext
    constructor <;> intro hh <;> omega
  simp only [hcond]

/-- Dispatch does nothing while the slot is occupied. -/
theorem dispatch_phase_occupied {s : SimState} {p : Process} (h : s.running = some p) :
    dispatch_phase s = s := by
  unfold dispatch_phase; rw [h]

/-- Dispatch does nothing when the ready queue is empty. -/
theorem dispatch_phase_empty {s : SimState} (h : s.running = none) (h2 : s.ready = []) :
    dispatch_phase s = s := by
  unfold dispatch_phase; rw [h, h2]

/-- Dispatch with a vacant slot and a non-empty ready queue: the head is
removed, marked RUNNING, and scheduled for `min interval remaining`
milliseconds. -/
theorem dispatch_phase_take {s : SimState} {p : Process} {rest : List Process}
    (h : s.running = none) (h2 : s.ready = p :: rest) :
    dispatch_phase s =
      { s with ready := rest, running := some { p with state := ProcessState.RUNNING },
               running_until := s.clock + min p.interval_time p.remaining_time,
               events := s.events ++ [.dispatched s.clock p.pid p.priority p.remaining_time
                 (min p.interval_time p.remaining_time)] } := by
  unfold dispatch_phase
  rw [h, h2]
  dsimp only
  have hbt : (if p.interval_time > p.remaining_time then p.remaining_time
      else p.interval_time) = min p.interval_time p.remaining_time := by
    split <;> omega
  rw [hbt]

/-- Pending records are records of the simulation. -/
theorem mem_all_of_pending {s : SimState} {p : Process} (h : p ∈ s.pending) :
    p ∈ allRecords s := by
  unfold allRecords; simp [h]

/-- Ready records are records of the simulation. -/
theorem mem_all_of_ready {s : SimState} {p : Process} (h : p ∈ s.ready) :
    p ∈ allRecords s := by
  unfold allRecords; simp [h]

/-- Waiting records are records of the simulation. -/
theorem mem_all_of_waiting {s : SimState} {p : Process} (h : p ∈ s.waiting) :
    p ∈ allRecords s := by
  unfold allRecords; simp [h]

/-- The slot occupant is a record of the simulation. -/
theorem mem_all_of_running {s : SimState} {p : Process} (h : s.running = some p) :
    p ∈ allRecords s := by
  unfold allRecords; simp [h]

/-- Terminated records are records of the simulation. -/
theorem mem_all_of_term {s : SimState} {p : Process} (h : p ∈ s.terminated_list) :
    p ∈ allRecords s := by
  unfold allRecords; simp [h]

/-- Assemble `MidInv` from per-container facts. -/
theorem midInv_build {X : SimState}
    (h1 : 0 < X.clock) (h2 : X.last_aging_check = X.clock)
    (hpend : ∀ p ∈ X.pending, p.state = ProcessState.NEW ∧
      p.remaining_time = p.cpu_execution_time ∧ p.run_ticks = 0 ∧
      X.clock < p.arrival_time ∧ rec_dom p)
    (hready : ∀ p ∈ X.ready, p.state = ProcessState.READY ∧ 0 < p.remaining_time ∧
      p.run_ticks = p.cpu_execution_time - p.remaining_time ∧ rec_dom p)
    (hwait : ∀ p ∈ X.waiting, p.state = ProcessState.WAITING ∧ 0 < p.remaining_time ∧
      p.run_ticks = p.cpu_execution_time - p.remaining_time ∧ rec_dom p)
    (hrun : ∀ p ∈ X.running.toList, p.state = ProcessState.RUNNING ∧ 0 < p.remaining_time ∧
      X.clock < X.running_until ∧
      p.run_ticks = p.cpu_execution_time - p.remaining_time +
        (X.clock + min p.interval_time p.remaining_time - X.running_until) ∧ rec_dom p)
    (hterm : ∀ p ∈ X.terminated_list, p.state = ProcessState.TERMINATED ∧
      p.remaining_time = 0 ∧ p.run_ticks = p.cpu_execution_time ∧ rec_dom p)
    (hsort : X.ready.Pairwise le_key) : MidInv X := by
  refine ⟨h1, h2, ?_, ?_, ?_, ?_, ?_, ?_, hsort⟩
  · intro p hp
    unfold allRecords at hp
    simp only [List.mem_append, Option.mem_toList] at hp
    rcases hp with ((((hp | hp) | hp) | hp) | hp)
    · exact (hpend p hp).2.2.2.2
    · exact (hready p hp).2.2.2
    · exact (hwait p hp).2.2.2
    · exact (hrun p (Option.mem_toList.mpr hp)).2.2.2.2
    · exact (hterm p hp).2.2.2
  · exact fun p hp => ⟨(hpend p hp).1, (hpend p hp).2.1, (hpend p hp).2.2.1, (hpend p hp).2.2.2.1⟩
  · exact fun p hp => ⟨(hready p hp).1, (hready p hp).2.1, (hready p hp).2.2.1⟩
  · exact fun p hp => ⟨(hwait p hp).1, (hwait p hp).2.1, (hwait p hp).2.2.1⟩
  · exact fun p hp => ⟨(hrun p hp).1, (hrun p hp).2.1, (hrun p hp).2.2.1, (hrun p hp).2.2.2.1⟩
  · exact fun p hp => ⟨(hterm p hp).1, (hterm p hp).2.1, (hterm p hp).2.2.1⟩

/-- The scheduler-loop body of one tick (clock advance, arrivals, aging,
burst resolution, dispatch) establishes the mid-tick invariant. -/
theorem midInv_of {s : SimState} (hs : SimInv s) : MidInv (mid_state s) := by
  have horigin := phaseA_ready_origin hs
  have hkey : mid_state s =
      dispatch_phase (resolve_phase
        { s with clock := s.clock + 1, last_aging_check := s.clock + 1,
                 pending := (arrivals_go (s.clock + 1) s.pending s.ready s.events).1,
                 ready := resort_ready_queue (update_aging 1
                   ((arrivals_go (s.clock + 1) s.pending s.ready s.events).2.1)),
                 events := (arrivals_go (s.clock + 1) s.pending s.ready s.events).2.2 }) := by
    unfold mid_state; rw [phaseA_eq hs]
  have hReadyF : ∀ x ∈ resort_ready_queue (update_aging 1
      ((arrivals_go (s.clock + 1) s.pending s.ready s.events).2.1)),
      x.state = ProcessState.READY ∧ 0 < x.remaining_time ∧
      x.run_ticks = x.cpu_execution_time - x.remaining_time ∧ rec_dom x := by
    intro x hx
    have hx2 : x ∈ (aging_phase (arrivals_phase (tick_clock s))).ready := by
      rw [phaseA_eq hs]; exact hx
    rcases horigin x hx2 with ⟨y, hy, ho⟩
    rcases ho with ⟨hpid, hcpu, hrem, hint, hio, hor, hrt, hst, hpr⟩
    have hyAll : y ∈ allRecords s := by
      rcases hy with hy | ⟨hy, _⟩
      · exact mem_all_of_ready hy
      · exact mem_all_of_pending hy
    rcases hs.rec_good y hyAll with ⟨hg1, hg2, hg3, hg4⟩
    have hprle : x.priority ≤ y.priority := by
      rcases hpr with he | he
      · omega
      · rw [he]; exact aging_record_pr_le 1 y
    have hprnn : 0 ≤ x.priority := by
      rcases hpr with he | he
      · omega
      · rw [he]; exact aging_record_pr_nonneg 1 y hg3
    have hrem2 : 0 < y.remaining_time := by
      rcases hy with hy | ⟨hy, _⟩
      · exact (hs.ready_inv y hy).2.1
      · rw [(hs.pend_inv y hy).2.1]; exact hg2
    have hrtv : y.run_ticks = y.cpu_execution_time - y.remaining_time := by
      rcases hy with hy | ⟨hy, _⟩
      · exact (hs.ready_inv y hy).2.2
      · rcases hs.pend_inv y hy with ⟨_, ha2, hb2, _⟩
        omega
    exact ⟨hst, by omega, by omega, by omega, by omega, hprnn, by omega⟩
  have hSortF : (resort_ready_queue (update_aging 1
      ((arrivals_go (s.clock + 1) s.pending s.ready s.events).2.1))).Pairwise le_key :=
    resort_sorted _
  have hPendF : ∀ x ∈ (arrivals_go (s.clock + 1) s.pending s.ready s.events).1,
      x.state = ProcessState.NEW ∧ x.remaining_time = x.cpu_execution_time ∧
      x.run_ticks = 0 ∧ s.clock + 1 < x.arrival_time ∧ rec_dom x := by
    intro x hx
    rw [arrivals_go_pending] at hx
    rcases List.mem_filter.mp hx with ⟨hxp, hdec⟩
    rcases hs.pend_inv x hxp with ⟨h1, h2, h3, _⟩
    exact ⟨h1, h2, h3, by simpa using hdec, hs.rec_good x (mem_all_of_pending hxp)⟩
  have hWaitF : ∀ x ∈ s.waiting, x.state = ProcessState.WAITING ∧ 0 < x.remaining_time ∧
      x.run_ticks = x.cpu_execution_time - x.remaining_time ∧ rec_dom x := fun x hx =>
    ⟨(hs.wait_inv x hx).1, (hs.wait_inv x hx).2.1, (hs.wait_inv x hx).2.2.2,
      hs.rec_good x (mem_all_of_waiting hx)⟩
  have hTermF : ∀ x ∈ s.terminated_list, x.state = ProcessState.TERMINATED ∧
      x.remaining_time = 0 ∧ x.run_ticks = x.cpu_execution_time ∧ rec_dom x := fun x hx =>
    ⟨(hs.term_inv x hx).1, (hs.term_inv x hx).2.1, (hs.term_inv x hx).2.2,
      hs.rec_good x (mem_all_of_term hx)⟩
  have hdispatchBuild : ∀ R : SimState,
      R.pending = (arrivals_go (s.clock + 1) s.pending s.ready s.events).1 →
      R.ready = resort_ready_queue (update_aging 1
        ((arrivals_go (s.clock + 1) s.pending s.ready s.events).2.1)) →
      R.running = none → R.clock = s.clock + 1 → R.last_aging_check = s.clock + 1 →
      (∀ x ∈ R.waiting, x.state = ProcessState.WAITING ∧ 0 < x.remaining_time ∧
        x.run_ticks = x.cpu_execution_time - x.remaining_time ∧ rec_dom x) →
      (∀ x ∈ R.terminated_list, x.state = ProcessState.TERMINATED ∧
        x.remaining_time = 0 ∧ x.run_ticks = x.cpu_execution_time ∧ rec_dom x) →
      MidInv (dispatch_phase R) := by
    intro R hRp hRr hRn hRc hRl hRw hRt
    rcases hform : resort_ready_queue (update_aging 1
        ((arrivals_go (s.clock + 1) s.pending s.ready s.events).2.1)) with _ | ⟨h0, rest⟩
    · rw [dispatch_phase_empty hRn (hRr.trans hform)]
      refine midInv_build ?_ ?_ ?_ ?_ ?_ ?_ ?_ ?_
      · rw [hRc]; have := hs.clock_nonneg; omega
      · rw [hRl, hRc]
      · rw [hRp, hRc]; exact hPendF
      · rw [hRr]; intro x hx
        exact ⟨(hReadyF x hx).1, (hReadyF x hx).2.1, (hReadyF x hx).2.2.1, (hReadyF x hx).2.2.2⟩
      · exact hRw
      · intro q hq; rw [hRn] at hq; simp at hq
      · exact hRt
      · rw [hRr]; exact hSortF
    · rw [dispatch_phase_take hRn (hRr.trans hform)]
      have h0mem : h0 ∈ resort_ready_queue (update_aging 1
          ((arrivals_go (s.clock + 1) s.pending s.ready s.events).2.1)) := by
        rw [hform]; exact List.mem_cons_self h0 rest
      rcases hReadyF h0 h0mem with ⟨h0st, h0rem, h0rt, h0dom⟩
      have h0v : 0 < h0.interval_time := h0dom.1
      refine midInv_build ?_ ?_ ?_ ?_ ?_ ?_ ?_ ?_
      · dsimp only; rw [hRc]; have := hs.clock_nonneg; omega
      · dsimp only; rw [hRl, hRc]
      · dsimp only; rw [hRp, hRc]; exact hPendF
      · dsimp only; intro x hx
        have hx2 : x ∈ resort_ready_queue (update_aging 1
            ((arrivals_go (s.clock + 1) s.pending s.ready s.events).2.1)) := by
          rw [hform]; exact List.mem_cons_of_mem h0 hx
        exact ⟨(hReadyF x hx2).1, (hReadyF x hx2).2.1, (hReadyF x hx2).2.2.1,
          (hReadyF x hx2).2.2.2⟩
      · dsimp only; exact hRw
      · dsimp only; intro q hq
        simp only [Option.toList_some, List.mem_singleton] at hq
        subst hq
        refine ⟨rfl, h0rem, ?_, ?_, h0dom⟩
        · dsimp only; omega
        · dsimp only; omega
      · dsimp only; exact hRt
      · dsimp only
        have htl := hSortF
        rw [hform] at htl
        exact (List.pairwise_cons.mp htl).2
  rw [hkey]
  rcases hr : s.running with _ | p
  · exact hdispatchBuild _ rfl rfl rfl rfl rfl hWaitF hTermF
  · have hpmem : p ∈ s.running.toList := by rw [hr]; simp
    rcases hs.run_inv p hpmem with ⟨hpst, hprem, hcu, hprt⟩
    rcases hs.rec_good p (mem_all_of_running hr) with ⟨hpv, hpcpu, hpr0, hprle⟩
    by_cases hfire : s.clock + 1 ≥ s.running_until
    · have huntil : s.running_until = s.clock + 1 := by omega
      have hdl := @resolve_phase_at_deadline
        { s with clock := s.clock + 1, last_aging_check := s.clock + 1,
                 running := some p,
                 pending := (arrivals_go (s.clock + 1) s.pending s.ready s.events).1,
                 ready := resort_ready_queue (update_aging 1
                   ((arrivals_go (s.clock + 1) s.pending s.ready s.events).2.1)),
                 events := (arrivals_go (s.clock + 1) s.pending s.ready s.events).2.2 }
        p rfl (by show s.clock + 1 = s.running_until; omega)
      rw [hdl]
      by_cases hrv : p.remaining_time ≤ p.interval_time
      · rw [if_pos hrv]
        have hmin : min p.interval_time p.remaining_time = p.remaining_time :=
          min_eq_right hrv
        refine hdispatchBuild _ rfl rfl rfl rfl rfl hWaitF ?_
        intro x hx
        have hx2 : x ∈ s.terminated_list ++
            [{ p with remaining_time := p.remaining_time - min p.interval_time p.remaining_time,
                      state := ProcessState.TERMINATED }] := hx
        rw [List.mem_append] at hx2
        rcases hx2 with hx2 | hx2
        · exact hTermF x hx2
        · rw [List.mem_singleton] at hx2
          subst hx2
          refine ⟨rfl, ?_, ?_, ⟨hpv, hpcpu, hpr0, hprle⟩⟩
          · show p.remaining_time - min p.interval_time p.remaining_time = 0
            omega
          · show p.run_ticks = p.cpu_execution_time
            omega
      · rw [if_neg hrv]
        have hmin : min p.interval_time p.remaining_time = p.interval_time :=
          min_eq_left (by omega)
        refine hdispatchBuild _ rfl rfl rfl rfl rfl ?_ hTermF
        intro x hx
        have hx2 : x ∈ s.waiting ++
            [{ p with remaining_time := p.remaining_time - min p.interval_time p.remaining_time,
                      state := ProcessState.WAITING,
                      io_completion_time := s.clock + 1 + p.io_time }] := hx
        rw [List.mem_append] at hx2
        rcases hx2 with hx2 | hx2
        · exact hWaitF x hx2
        · rw [List.mem_singleton] at hx2
          subst hx2
          refine ⟨rfl, ?_, ?_, ⟨hpv, hpcpu, hpr0, hprle⟩⟩
          · show 0 < p.remaining_time - min p.interval_time p.remaining_time
            omega
          · show p.run_ticks = p.cpu_execution_time -
              (p.remaining_time - min p.interval_time p.remaining_time)
            omega
    · have hsk := @resolve_phase_skip
        { s with clock := s.clock + 1, last_aging_check := s.clock + 1,
                 running := some p,
                 pending := (arrivals_go (s.clock + 1) s.pending s.ready s.events).1,
                 ready := resort_ready_queue (update_aging 1
                   ((arrivals_go (s.clock + 1) s.pending s.ready s.events).2.1)),
                 events := (arrivals_go (s.clock + 1) s.pending s.ready s.events).2.2 }
        p rfl (by show ¬ s.clock + 1 ≥ s.running_until; omega)
      rw [hsk]
      refine midInv_build ?_ ?_ ?_ ?_ ?_ ?_ ?_ ?_
      · show (0 : Int) < s.clock + 1
        have := hs.clock_nonneg; omega
      · rfl
      · exact hPendF
      · exact hReadyF
      · exact hWaitF
      · intro q hq
        have hq2 : q ∈ [p] := hq
        rw [List.mem_singleton] at hq2
        subst hq2
        refine ⟨hpst, hprem, ?_, ?_, ⟨hpv, hpcpu, hpr0, hprle⟩⟩
        · show s.clock + 1 < s.running_until
          omega
        · exact hprt
      · exact hTermF
      · exact hSortF

/-- Assemble `SimInv` from per-container facts. -/
theorem simInv_build {X : SimState}
    (h1 : 0 ≤ X.clock) (h2 : X.last_aging_check = X.clock)
    (hpend : ∀ p ∈ X.pending, p.state = ProcessState.NEW ∧
      p.remaining_time = p.cpu_execution_time ∧ p.run_ticks = 0 ∧
      (X.clock < p.arrival_time ∨ X.clock = 0) ∧ rec_dom p)
    (hready : ∀ p ∈ X.ready, p.state = ProcessState.READY ∧ 0 < p.remaining_time ∧
      p.run_ticks = p.cpu_execution_time - p.remaining_time ∧ rec_dom p)
    (hwait : ∀ p ∈ X.waiting, p.state = ProcessState.WAITING ∧ 0 < p.remaining_time ∧
      X.clock < p.io_completion_time ∧
      p.run_ticks = p.cpu_execution_time - p.remaining_time ∧ rec_dom p)
    (hrun : ∀ p ∈ X.running.toList, p.state = ProcessState.RUNNING ∧ 0 < p.remaining_time ∧
      X.clock < X.running_until ∧
      p.run_ticks = p.cpu_execution_time - p.remaining_time +
        (X.clock + 1 + min p.interval_time p.remaining_time - X.running_until) ∧ rec_dom p)
    (hterm : ∀ p ∈ X.terminated_list, p.state = ProcessState.TERMINATED ∧
      p.remaining_time = 0 ∧ p.run_ticks = p.cpu_execution_time ∧ rec_dom p)
    (hsort : X.ready.Pairwise le_key)
    (hfin : X.finished = true →
      X.pending = [] ∧ X.ready = [] ∧ X.waiting = [] ∧ X.running = none) : SimInv X := by
  refine ⟨h1, h2, ?_, ?_, ?_, ?_, ?_, ?_, hsort, hfin⟩
  · intro p hp
    unfold allRecords at hp
    simp only [List.mem_append, Option.mem_toList] at hp
    rcases hp with ((((hp | hp) | hp) | hp) | hp)
    · exact (hpend p hp).2.2.2.2
    · exact (hready p hp).2.2.2
    · exact (hwait p hp).2.2.2.2
    · exact (hrun p (Option.mem_toList.mpr hp)).2.2.2.2
    · exact (hterm p hp).2.2.2
  · exact fun p hp => ⟨(hpend p hp).1, (hpend p hp).2.1, (hpend p hp).2.2.1, (hpend p hp).2.2.2.1⟩
  · exact fun p hp => ⟨(hready p hp).1, (hready p hp).2.1, (hready p hp).2.2.1⟩
  · exact fun p hp =>
      ⟨(hwait p hp).1, (hwait p hp).2.1, (hwait p hp).2.2.1, (hwait p hp).2.2.2.1⟩
  · exact fun p hp => ⟨(hrun p hp).1, (hrun p hp).2.1, (hrun p hp).2.2.1, (hrun p hp).2.2.2.1⟩
  · exact fun p hp => ⟨(hterm p hp).1, (hterm p hp).2.1, (hterm p hp).2.2.1⟩

/-- Raising the completion flag at the mid-tick check yields the end-of-tick
invariant: with every record Terminated, all other containers are empty. -/
theorem simInv_finish {m : SimState} (hm : MidInv m)
    (hdone : all_done m = true) (hnone : m.running = none) :
    SimInv { m with finished := true } := by
  have hall : ∀ p ∈ allRecords m, p.state = ProcessState.TERMINATED := by
    intro p hp
    have := List.all_eq_true.mp hdone p hp
    simpa using this
  have hpe : m.pending = [] := by
    rcases hpd : m.pending with _ | ⟨q, t⟩
    · rfl
    · exfalso
      have h1 := (hm.pend_inv q (by rw [hpd]; exact List.mem_cons_self q t)).1
      have h2 := hall q (mem_all_of_pending (by rw [hpd]; exact List.mem_cons_self q t))
      rw [h1] at h2
      exact absurd h2 (by decide)
  have hre : m.ready = [] := by
    rcases hpd : m.ready with _ | ⟨q, t⟩
    · rfl
    · exfalso
      have h1 := (hm.ready_inv q (by rw [hpd]; exact List.mem_cons_self q t)).1
      have h2 := hall q (mem_all_of_ready (by rw [hpd]; exact List.mem_cons_self q t))
      rw [h1] at h2
      exact absurd h2 (by decide)
  have hwe : m.waiting = [] := by
    rcases hpd : m.waiting with _ | ⟨q, t⟩
    · rfl
    · exfalso
      have h1 := (hm.wait_inv q (by rw [hpd]; exact List.mem_cons_self q t)).1
      have h2 := hall q (mem_all_of_waiting (by rw [hpd]; exact List.mem_cons_self q t))
      rw [h1] at h2
      exact absurd h2 (by decide)
  refine simInv_build ?_ ?_ ?_ ?_ ?_ ?_ ?_ ?_ ?_
  · show (0 : Int) ≤ m.clock
    have := hm.clock_pos; omega
  · exact hm.aging_sync
  · show ∀ p ∈ m.pending, _
    rw [hpe]; intro p hp; exact absurd hp (List.not_mem_nil p)
  · show ∀ p ∈ m.ready, _
    rw [hre]; intro p hp; exact absurd hp (List.not_mem_nil p)
  · show ∀ p ∈ m.waiting, _
    rw [hwe]; intro p hp; exact absurd hp (List.not_mem_nil p)
  · show ∀ p ∈ m.running.toList, _
    rw [hnone]; intro p hp; exact absurd hp (List.not_mem_nil p)
  · intro p hp
    exact ⟨(hm.term_inv p hp).1, (hm.term_inv p hp).2.1, (hm.term_inv p hp).2.2,
      hm.rec_good p (mem_all_of_term hp)⟩
  · exact hm.ready_sorted
  · exact fun _ => ⟨hpe, hre, hwe, hnone⟩

/-- The monitor scan and the ghost bookkeeping at the end of a tick restore
the end-of-tick invariant from the mid-tick one. -/
theorem simInv_after_io {m : SimState} (hm : MidInv m) (hfin : m.finished = false) :
    SimInv (ghost_phase (io_phase m)) := by
  refine simInv_build ?_ ?_ ?_ ?_ ?_ ?_ ?_ ?_ ?_
  · show (0 : Int) ≤ m.clock
    have := hm.clock_pos; omega
  · exact hm.aging_sync
  · intro p hp
    have hp2 : p ∈ m.pending := hp
    rcases hm.pend_inv p hp2 with ⟨h1, h2, h3, h4⟩
    exact ⟨h1, h2, h3, Or.inl h4, hm.rec_good p (mem_all_of_pending hp2)⟩
  · intro p hp
    have hp2 : p ∈ (io_scan m.clock m.waiting m.ready m.events).2.1 := hp
    have hmem := (io_scan_ready_perm m.clock m.waiting m.ready m.events).mem_iff.mp hp2
    rw [List.mem_append] at hmem
    rcases hmem with hmem | hmem
    · exact ⟨(hm.ready_inv p hmem).1, (hm.ready_inv p hmem).2.1,
        (hm.ready_inv p hmem).2.2, hm.rec_good p (mem_all_of_ready hmem)⟩
    · rcases List.mem_map.mp hmem with ⟨y, hy, rfl⟩
      rcases List.mem_filter.mp hy with ⟨hyw, _⟩
      rcases hm.wait_inv y hyw with ⟨_, hy2, hy3⟩
      rcases hm.rec_good y (mem_all_of_waiting hyw) with ⟨hg1, hg2, hg3, hg4⟩
      exact ⟨rfl, hy2, hy3, hg1, hg2, hg3, hg4⟩
  · intro p hp
    have hp2 : p ∈ (io_scan m.clock m.waiting m.ready m.events).1 := hp
    rw [io_scan_waiting] at hp2
    rcases List.mem_filter.mp hp2 with ⟨hpw, hdec⟩
    rcases hm.wait_inv p hpw with ⟨h1, h2, h3⟩
    exact ⟨h1, h2, by simpa using hdec, h3, hm.rec_good p (mem_all_of_waiting hpw)⟩
  · intro p hp
    have hp2 : p ∈ (m.running.map
        (fun q => { q with run_ticks := q.run_ticks + 1 })).toList := hp
    rcases hrm : m.running with _ | q
    · rw [hrm] at hp2; simp at hp2
    · rw [hrm] at hp2
      simp at hp2
      subst hp2
      have hq := hm.run_inv q (by rw [hrm]; simp)
      rcases hq with ⟨hq1, hq2, hq3, hq4⟩
      rcases hm.rec_good q (mem_all_of_running hrm) with ⟨hg1, hg2, hg3, hg4⟩
      refine ⟨hq1, hq2, ?_, ?_, hg1, hg2, hg3, hg4⟩
      · show m.clock < m.running_until
        exact hq3
      · show q.run_ticks + 1 = q.cpu_execution_time - q.remaining_time +
          (m.clock + 1 + min q.interval_time q.remaining_time - m.running_until)
        omega
  · intro p hp
    have hp2 : p ∈ m.terminated_list := hp
    exact ⟨(hm.term_inv p hp2).1, (hm.term_inv p hp2).2.1, (hm.term_inv p hp2).2.2,
      hm.rec_good p (mem_all_of_term hp2)⟩
  · show ((io_scan m.clock m.waiting m.ready m.events).2.1).Pairwise le_key
    exact io_scan_sorted _ _ _ _ hm.ready_sorted
  · intro h
    have h2 : m.finished = true := h
    rw [hfin] at h2
    exact absurd h2 (by decide)

/-- The completion flag of the mid-tick state is the incoming one. -/
theorem mid_state_finished (s : SimState) : (mid_state s).finished = s.finished := by
  unfold mid_state
  rw [(dispatch_phase_same _).2.2.2.2.2, (resolve_phase_same _).2.2.2.2.2,
    (aging_phase_same _).2.2.2.2.2.2.1, (arrivals_phase_same _).2.2.2.2.2.2]
  rfl

/-- The end-of-tick invariant is preserved by every tick. -/
theorem simInv_step {s : SimState} (hs : SimInv s) : SimInv (scheduler_tick s) := by
  by_cases hf : s.finished = true
  · rw [scheduler_tick_fix hf]; exact hs
  · have hf2 : s.finished = false := by simpa using hf
    rw [scheduler_tick_go hf2]
    have hm := midInv_of hs
    split
    next hcond =>
      rw [Bool.and_eq_true] at hcond
      exact simInv_finish hm hcond.1 (by simpa using hcond.2)
    next =>
      exact simInv_after_io hm (by rw [mid_state_finished]; exact hf2)

/-- The end-of-tick invariant holds initially on well-formed input. -/
theorem simInv_init {ps : List Process} (h : WFInput ps) : SimInv (init_state ps) := by
  refine simInv_build ?_ rfl ?_ ?_ ?_ ?_ ?_ ?_ ?_
  · exact le_refl 0
  · intro p hp
    have hp2 : p ∈ ps := hp
    rcases h p hp2 with ⟨h1, _, h3, h4, h5, h6, h7, h8⟩
    exact ⟨h1, h3, h8, Or.inr rfl, h5, h4, h6, by omega⟩
  · intro p hp; exact absurd hp (List.not_mem_nil p)
  · intro p hp; exact absurd hp (List.not_mem_nil p)
  · intro p hp; exact absurd hp (List.not_mem_nil p)
  · intro p hp; exact absurd hp (List.not_mem_nil p)
  · exact List.Pairwise.nil
  · intro hfin
    exact Bool.noConfusion hfin

/-- The end-of-tick invariant holds in every reachable state. -/
theorem simInv_run {ps : List Process} (h : WFInput ps) :
    ∀ n, SimInv (run_sim ps n) := by
  intro n
  induction n with
  | zero => exact simInv_init h
  | succ n ih => exact simInv_step ih

/-- Every record tracks itself. -/
theorem tracks_refl (x : Process) : tracks x x :=
  ⟨rfl, rfl, rfl, rfl, rfl, le_refl _, le_refl _, Or.inl rfl⟩

/-- A ready-queue resident tracks its origin record. -/
theorem tracks_of_origin {x y : Process} (h : ready_origin x y) : tracks x y := by
  obtain ⟨h1, h2, h3, h4, h5, h6, _, _, h9⟩ := h
  refine ⟨h1, h2, h4, h5, h6, le_of_eq h3, ?_, h9⟩
  rcases h9 with he | he
  · omega
  · rw [he]; exact aging_record_pr_le 1 y

/-- Tracking transfers along equality of the scheduling-relevant fields. -/
theorem tracks_of_fields_eq {x y z : Process}
    (hpid : x.pid = y.pid) (hcpu : x.cpu_execution_time = y.cpu_execution_time)
    (hint : x.interval_time = y.interval_time) (hio : x.io_time = y.io_time)
    (horig : x.original_priority = y.original_priority)
    (hrem : x.remaining_time = y.remaining_time) (hpr : x.priority = y.priority)
    (ht : tracks y z) : tracks x z := by
  obtain ⟨t1, t2, t3, t4, t5, t6, t7, t8⟩ := ht
  refine ⟨by omega, by omega, by omega, by omega, by omega, by omega, by omega, ?_⟩
  rcases t8 with he | he
  · exact Or.inl (by omega)
  · exact Or.inr (by omega)

/-- Every record of the mid-tick state tracks a record of the previous
end-of-tick state. -/
theorem mid_tracks {s : SimState} (hs : SimInv s) :
    ∀ x ∈ allRecords (mid_state s), ∃ y ∈ allRecords s, tracks x y := by
  have horigin := phaseA_ready_origin hs
  have hkey : mid_state s =
      dispatch_phase (resolve_phase
        { s with clock := s.clock + 1, last_aging_check := s.clock + 1,
                 pending := (arrivals_go (s.clock + 1) s.pending s.ready s.events).1,
                 ready := resort_ready_queue (update_aging 1
                   ((arrivals_go (s.clock + 1) s.pending s.ready s.events).2.1)),
                 events := (arrivals_go (s.clock + 1) s.pending s.ready s.events).2.2 }) := by
    unfold mid_state; rw [phaseA_eq hs]
  have hPend : ∀ x ∈ (arrivals_go (s.clock + 1) s.pending s.ready s.events).1,
      x ∈ s.pending := by
    intro x hx
    rw [arrivals_go_pending] at hx
    exact (List.mem_filter.mp hx).1
  have hReady : ∀ x ∈ resort_ready_queue (update_aging 1
      ((arrivals_go (s.clock + 1) s.pending s.ready s.events).2.1)),
      ∃ y ∈ allRecords s, tracks x y := by
    intro x hx
    have hx2 : x ∈ (aging_phase (arrivals_phase (tick_clock s))).ready := by
      rw [phaseA_eq hs]; exact hx
    rcases horigin x hx2 with ⟨y, hy, ho⟩
    refine ⟨y, ?_, tracks_of_origin ho⟩
    rcases hy with hy | ⟨hy, _⟩
    · exact mem_all_of_ready hy
    · exact mem_all_of_pending hy
  have hdisp : ∀ R : SimState,
      R.pending = (arrivals_go (s.clock + 1) s.pending s.ready s.events).1 →
      R.ready = resort_ready_queue (update_aging 1
        ((arrivals_go (s.clock + 1) s.pending s.ready s.events).2.1)) →
      R.running = none →
      (∀ x ∈ R.waiting, ∃ y ∈ allRecords s, tracks x y) →
      (∀ x ∈ R.terminated_list, ∃ y ∈ allRecords s, tracks x y) →
      ∀ x ∈ allRecords (dispatch_phase R), ∃ y ∈ allRecords s, tracks x y := by
    intro R hRp hRr hRn hRw hRt
    rcases hform : resort_ready_queue (update_aging 1
        ((arrivals_go (s.clock + 1) s.pending s.ready s.events).2.1)) with _ | ⟨h0, rest⟩
    · rw [dispatch_phase_empty hRn (hRr.trans hform)]
      intro x hx
      unfold allRecords at hx
      simp only [List.mem_append, Option.mem_toList] at hx
      rcases hx with ((((hx | hx) | hx) | hx) | hx)
      · exact ⟨x, mem_all_of_pending (hPend x (hRp ▸ hx)), tracks_refl x⟩
      · exact hReady x (hRr ▸ hx)
      · exact hRw x hx
      · rw [hRn] at hx; simp at hx
      · exact hRt x hx
    · rw [dispatch_phase_take hRn (hRr.trans hform)]
      intro x hx
      unfold allRecords at hx
      dsimp only at hx
      simp only [List.mem_append, Option.mem_toList, Option.mem_def,
        Option.some_inj, List.mem_singleton] at hx
      rcases hx with ((((hx | hx) | hx) | hx) | hx)
      · exact ⟨x, mem_all_of_pending (hPend x (hRp ▸ hx)), tracks_refl x⟩
      · exact hReady x (hform ▸ List.mem_cons_of_mem h0 hx)
      · exact hRw x hx
      · rcases hReady h0 (hform ▸ List.mem_cons_self h0 rest) with ⟨y, hy, ht⟩
        subst hx
        exact ⟨y, hy, tracks_of_fields_eq rfl rfl rfl rfl rfl rfl rfl ht⟩
      · exact hRt x hx
  rw [hkey]
  rcases hr : s.running with _ | p
  · refine hdisp _ rfl rfl rfl ?_ ?_
    · intro x hx
      exact ⟨x, mem_all_of_waiting (show x ∈ s.waiting from hx), tracks_refl x⟩
    · intro x hx
      exact ⟨x, mem_all_of_term (show x ∈ s.terminated_list from hx), tracks_refl x⟩
  · have hpmem : p ∈ s.running.toList := by rw [hr]; simp
    rcases hs.run_inv p hpmem with ⟨hpst, hprem, hcu, hprt⟩
    rcases hs.rec_good p (mem_all_of_running hr) with ⟨hpv, hpcpu, hpr0, hprle⟩
    by_cases hfire : s.clock + 1 ≥ s.running_until
    · have huntil : s.running_until = s.clock + 1 := by omega
      have hdl := @resolve_phase_at_deadline
        { s with clock := s.clock + 1, last_aging_check := s.clock + 1,
                 running := some p,
                 pending := (arrivals_go (s.clock + 1) s.pending s.ready s.events).1,
                 ready := resort_ready_queue (update_aging 1
                   ((arrivals_go (s.clock + 1) s.pending s.ready s.events).2.1)),
                 events := (arrivals_go (s.clock + 1) s.pending s.ready s.events).2.2 }
        p rfl (by show s.clock + 1 = s.running_until; omega)
      rw [hdl]
      by_cases hrv : p.remaining_time ≤ p.interval_time
      · rw [if_pos hrv]
        refine hdisp _ rfl rfl rfl ?_ ?_
        · intro x hx
          exact ⟨x, mem_all_of_waiting (show x ∈ s.waiting from hx), tracks_refl x⟩
        · intro x hx
          have hx2 : x ∈ s.terminated_list ++
              [{ p with remaining_time := p.remaining_time - min p.interval_time p.remaining_time,
                        state := ProcessState.TERMINATED }] := hx
          rw [List.mem_append] at hx2
          rcases hx2 with hx2 | hx2
          · exact ⟨x, mem_all_of_term hx2, tracks_refl x⟩
          · rw [List.mem_singleton] at hx2
            subst hx2
            refine ⟨p, mem_all_of_running hr, rfl, rfl, rfl, rfl, rfl, ?_, le_refl _, Or.inl rfl⟩
            show p.remaining_time - min p.interval_time p.remaining_time ≤ p.remaining_time
            omega
      · rw [if_neg hrv]
        refine hdisp _ rfl rfl rfl ?_ ?_
        · intro x hx
          have hx2 : x ∈ s.waiting ++
              [{ p with remaining_time := p.remaining_time - min p.interval_time p.remaining_time,
                        state := ProcessState.WAITING,
                        io_completion_time := s.clock + 1 + p.io_time }] := hx
          rw [List.mem_append] at hx2
          rcases hx2 with hx2 | hx2
          · exact ⟨x, mem_all_of_waiting hx2, tracks_refl x⟩
          · rw [List.mem_singleton] at hx2
            subst hx2
            refine ⟨p, mem_all_of_running hr, rfl, rfl, rfl, rfl, rfl, ?_, le_refl _, Or.inl rfl⟩
            show p.remaining_time - min p.interval_time p.remaining_time ≤ p.remaining_time
            omega
        · intro x hx
          exact ⟨x, mem_all_of_term (show x ∈ s.terminated_list from hx), tracks_refl x⟩
    · have hsk := @resolve_phase_skip
        { s with clock := s.clock + 1, last_aging_check := s.clock + 1,
                 running := some p,
                 pending := (arrivals_go (s.clock + 1) s.pending s.ready s.events).1,
                 ready := resort_ready_queue (update_aging 1
                   ((arrivals_go (s.clock + 1) s.pending s.ready s.events).2.1)),
                 events := (arrivals_go (s.clock + 1) s.pending s.ready s.events).2.2 }
        p rfl (by show ¬ s.clock + 1 ≥ s.running_until; omega)
      rw [hsk, @dispatch_phase_occupied
        { s with clock := s.clock + 1, last_aging_check := s.clock + 1,
                 running := some p,
                 pending := (arrivals_go (s.clock + 1) s.pending s.ready s.events).1,
                 ready := resort_ready_queue (update_aging 1
                   ((arrivals_go (s.clock + 1) s.pending s.ready s.events).2.1)),
                 events := (arrivals_go (s.clock + 1) s.pending s.ready s.events).2.2 }
        p rfl]
      intro x hx
      unfold allRecords at hx
      simp only [List.mem_append, Option.mem_toList, Option.mem_def,
        Option.some_inj, List.mem_singleton] at hx
      rcases hx with ((((hx | hx) | hx) | hx) | hx)
      · exact ⟨x, mem_all_of_pending (hPend x hx), tracks_refl x⟩
      · exact hReady x hx
      · exact ⟨x, mem_all_of_waiting hx, tracks_refl x⟩
      · subst hx
        exact ⟨p, mem_all_of_running hr, tracks_refl p⟩
      · exact ⟨x, mem_all_of_term hx, tracks_refl x⟩

/-- Every record after one full tick tracks a record of the previous
end-of-tick state: same identity and immutable fields, remaining time not
increased, priority either unchanged or aged one step. -/
theorem tracks_step {s : SimState} (hs : SimInv s) :
    ∀ x ∈ allRecords (scheduler_tick s), ∃ y ∈ allRecords s, tracks x y := by
  by_cases hf : s.finished = true
  · rw [scheduler_tick_fix hf]
    exact fun x hx => ⟨x, hx, tracks_refl x⟩
  · have hf2 : s.finished = false := by simpa using hf
    rw [scheduler_tick_go hf2]
    have hmid := mid_tracks hs
    split
    next =>
      intro x hx
      exact hmid x (show x ∈ allRecords (mid_state s) from hx)
    next =>
      intro x hx
      have hx2 : x ∈ (mid_state s).pending ++
          (io_scan (mid_state s).clock (mid_state s).waiting (mid_state s).ready
            (mid_state s).events).2.1 ++
          (io_scan (mid_state s).clock (mid_state s).waiting (mid_state s).ready
            (mid_state s).events).1 ++
          ((mid_state s).running.map
            (fun q => { q with run_ticks := q.run_ticks + 1 })).toList ++
          (mid_state s).terminated_list := hx
      simp only [List.mem_append] at hx2
      rcases hx2 with ((((hx2 | hx2) | hx2) | hx2) | hx2)
      · exact hmid x (mem_all_of_pending hx2)
      · have hmem := (io_scan_ready_perm (mid_state s).clock (mid_state s).waiting
          (mid_state s).ready (mid_state s).events).mem_iff.mp hx2
        rw [List.mem_append] at hmem
        rcases hmem with hmem | hmem
        · exact hmid x (mem_all_of_ready hmem)
        · rcases List.mem_map.mp hmem with ⟨y, hy, rfl⟩
          rcases List.mem_filter.mp hy with ⟨hyw, _⟩
          rcases hmid y (mem_all_of_waiting hyw) with ⟨z, hz, ht⟩
          exact ⟨z, hz, tracks_of_fields_eq rfl rfl rfl rfl rfl rfl rfl ht⟩
      · rw [io_scan_waiting] at hx2
        rcases List.mem_filter.mp hx2 with ⟨hxw, _⟩
        exact hmid x (mem_all_of_waiting hxw)
      · rcases hrm : (mid_state s).running with _ | q
        · rw [hrm] at hx2; simp at hx2
        · rw [hrm] at hx2
          simp at hx2
          subst hx2
          rcases hmid q (mem_all_of_running hrm) with ⟨z, hz, ht⟩
          exact ⟨z, hz, tracks_of_fields_eq rfl rfl rfl rfl rfl rfl rfl ht⟩
      · exact hmid x (mem_all_of_term hx2)

/-- C3: burst-length arithmetic equivalence.  Whenever the running record's
burst resolves in the next tick of a well-formed run (the new clock has
reached `running_until`), the clock-derived, clamped burst length the code
computes, `clock - (running_until - interval_time)` capped at the remaining
time, equals the `min(interval_time, remaining_time)` precomputed at
dispatch (the remaining time is unchanged during the burst, so the current
field values are the dispatch-time values). -/
theorem burst_equals_precomputed_min (ps : List Process) (h : WFInput ps) (n : Nat)
    (p : Process) (hr : (run_sim ps n).running = some p)
    (hc : (run_sim ps n).clock + 1 ≥ (run_sim ps n).running_until) :
    (if ((run_sim ps n).clock + 1) - ((run_sim ps n).running_until - p.interval_time) >
        p.remaining_time
     then p.remaining_time
     else ((run_sim ps n).clock + 1) - ((run_sim ps n).running_until - p.interval_time)) =
      min p.interval_time p.remaining_time := by
  have hs := simInv_run h n
  have hcu := (hs.run_inv p (by rw [hr]; simp)).2.2.1
  have huntil : (run_sim ps n).running_until = (run_sim ps n).clock + 1 := by omega
  rw [huntil]
  split <;> omega

/-- Witness for C3 on the concrete one-record input: at the end of tick 1
the slot holds the record with a burst deadline of tick 2, and the
resolution arithmetic of tick 2 yields the precomputed minimum. -/
theorem burst_equals_precomputed_min_w :
    (if ((run_sim wit_input 1).clock + 1) -
        ((run_sim wit_input 1).running_until - wit_running.interval_time) >
        wit_running.remaining_time
     then wit_running.remaining_time
     else ((run_sim wit_input 1).clock + 1) -
        ((run_sim wit_input 1).running_until - wit_running.interval_time)) =
      min wit_running.interval_time wit_running.remaining_time :=
  burst_equals_precomputed_min wit_input (by unfold WFInput; decide) 1 wit_running (by decide)
    (by decide)

/-- C5: priority evolution.  In every reachable state of a well-formed run,
every record's priority lies between 0 and its original priority, and
across one tick each record's priority never increases: it either stays
unchanged or is the result of one aging step. -/
theorem priority_monotone_bounded (ps : List Process) (h : WFInput ps) (n : Nat) :
    (∀ p ∈ allRecords (run_sim ps n), 0 ≤ p.priority ∧ p.priority ≤ p.original_priority)
    ∧ (∀ x ∈ allRecords (run_sim ps (n + 1)), ∃ y ∈ allRecords (run_sim ps n),
        x.pid = y.pid ∧ x.priority ≤ y.priority ∧
        (x.priority = y.priority ∨ x.priority = (aging_record 1 y).priority)) := by
  constructor
  · intro p hp
    have hg := (simInv_run h n).rec_good p hp
    exact ⟨hg.2.2.1, hg.2.2.2⟩
  · intro x hx
    rcases tracks_step (simInv_run h n) x hx with ⟨y, hy, ht⟩
    exact ⟨y, hy, ht.1, ht.2.2.2.2.2.2.1, ht.2.2.2.2.2.2.2⟩

/-- Witness for C5 at the concrete one-record input: the record occupying
the slot after one tick has its priority between 0 and its original. -/
theorem priority_monotone_bounded_w :
    0 ≤ wit_running.priority ∧ wit_running.priority ≤ wit_running.original_priority :=
  (priority_monotone_bounded wit_input (by unfold WFInput; decide) 1).1 wit_running (by decide)

/-- C6: single occupancy of the Running state.  In every reachable state of
a well-formed run, the records whose state is RUNNING are exactly the
content of the running slot; in particular at most one record is Running at
any tick. -/
theorem single_running_slot (ps : List Process) (h : WFInput ps) (n : Nat) :
    (allRecords (run_sim ps n)).filter (fun p => p.state == ProcessState.RUNNING) =
      (run_sim ps n).running.toList
    ∧ ((allRecords (run_sim ps n)).filter
        (fun p => p.state == ProcessState.RUNNING)).length ≤ 1 := by
  have hs := simInv_run h n
  have hmain : (allRecords (run_sim ps n)).filter
      (fun p => p.state == ProcessState.RUNNING) = (run_sim ps n).running.toList := by
    unfold allRecords
    rw [List.filter_append, List.filter_append, List.filter_append, List.filter_append]
    have h1 : (run_sim ps n).pending.filter
        (fun p => p.state == ProcessState.RUNNING) = [] := by
      rw [List.filter_eq_nil_iff]
      intro p hp
      rw [(hs.pend_inv p hp).1]
      decide
    have h2 : (run_sim ps n).ready.filter
        (fun p => p.state == ProcessState.RUNNING) = [] := by
      rw [List.filter_eq_nil_iff]
      intro p hp
      rw [(hs.ready_inv p hp).1]
      decide
    have h3 : (run_sim ps n).waiting.filter
        (fun p => p.state == ProcessState.RUNNING) = [] := by
      rw [List.filter_eq_nil_iff]
      intro p hp
      rw [(hs.wait_inv p hp).1]
      decide
    have h5 : (run_sim ps n).terminated_list.filter
        (fun p => p.state == ProcessState.RUNNING) = [] := by
      rw [List.filter_eq_nil_iff]
      intro p hp
      rw [(hs.term_inv p hp).1]
      decide
    have h4 : ((run_sim ps n).running.toList).filter
        (fun p => p.state == ProcessState.RUNNING) = (run_sim ps n).running.toList := by
      rw [List.filter_eq_self]
      intro p hp
      rw [(hs.run_inv p hp).1]
      decide
    rw [h1, h2, h3, h4, h5]
    simp
  refine ⟨hmain, ?_⟩
  rw [hmain]
  rcases (run_sim ps n).running with _ | q <;> simp

/-- Witness for C6 at the concrete one-record input after one tick. -/
theorem single_running_slot_w :
    (allRecords (run_sim wit_input 1)).filter (fun p => p.state == ProcessState.RUNNING) =
      (run_sim wit_input 1).running.toList :=
  (single_running_slot wit_input (by unfold WFInput; decide) 1).1

/-- C8: remaining time and conservation.  In every reachable state of a
well-formed run, remaining time is non-negative and zero exactly on
Terminated records; across one tick no record's remaining time grows; and
once the run finishes, the total time spent Running (the ghost per-record
tick counts) equals the total original CPU demand. -/
theorem remaining_time_conservation (ps : List Process) (h : WFInput ps) (n : Nat) :
    (∀ p ∈ allRecords (run_sim ps n),
        0 ≤ p.remaining_time ∧ (p.remaining_time = 0 ↔ p.state = ProcessState.TERMINATED))
    ∧ (∀ x ∈ allRecords (run_sim ps (n + 1)), ∃ y ∈ allRecords (run_sim ps n),
        x.pid = y.pid ∧ x.remaining_time ≤ y.remaining_time)
    ∧ ((run_sim ps n).finished = true →
        ((allRecords (run_sim ps n)).map (fun p => p.run_ticks)).sum =
          ((allRecords (run_sim ps n)).map (fun p => p.cpu_execution_time)).sum) := by
  have hs := simInv_run h n
  refine ⟨?_, ?_, ?_⟩
  · intro p hp
    have hp2 := hp
    unfold allRecords at hp2
    simp only [List.mem_append, Option.mem_toList] at hp2
    rcases hp2 with ((((hp2 | hp2) | hp2) | hp2) | hp2)
    · rcases hs.pend_inv p hp2 with ⟨h1, h2, _⟩
      have hg := hs.rec_good p (mem_all_of_pending hp2)
      refine ⟨by omega, fun he => False.elim (by omega), fun hst => ?_⟩
      rw [h1] at hst
      exact absurd hst (by decide)
    · rcases hs.ready_inv p hp2 with ⟨h1, h2, _⟩
      refine ⟨by omega, fun he => False.elim (by omega), fun hst => ?_⟩
      rw [h1] at hst
      exact absurd hst (by decide)
    · rcases hs.wait_inv p hp2 with ⟨h1, h2, _⟩
      refine ⟨by omega, fun he => False.elim (by omega), fun hst => ?_⟩
      rw [h1] at hst
      exact absurd hst (by decide)
    · rcases hs.run_inv p (Option.mem_toList.mpr hp2) with ⟨h1, h2, _⟩
      refine ⟨by omega, fun he => False.elim (by omega), fun hst => ?_⟩
      rw [h1] at hst
      exact absurd hst (by decide)
    · rcases hs.term_inv p hp2 with ⟨h1, h2, _⟩
      exact ⟨by omega, fun _ => h1, fun _ => h2⟩
  · intro x hx
    rcases tracks_step hs x hx with ⟨y, hy, ht⟩
    exact ⟨y, hy, ht.1, ht.2.2.2.2.2.1⟩
  · intro hfin
    rcases hs.fin_inv hfin with ⟨hp, hr, hw, hn⟩
    unfold allRecords
    rw [hp, hr, hw, hn]
    simp only [List.nil_append, Option.toList_none]
    have hcong : ∀ p ∈ (run_sim ps n).terminated_list,
        p.run_ticks = p.cpu_execution_time := fun p hp2 => (hs.term_inv p hp2).2.2
    have hgen : ∀ l : List Process, (∀ p ∈ l, p.run_ticks = p.cpu_execution_time) →
        (l.map (fun p => p.run_ticks)).sum = (l.map (fun p => p.cpu_execution_time)).sum := by
      intro l
      induction l with
      | nil => intro _; rfl
      | cons q t ih =>
        intro hc
        simp only [List.map_cons, List.sum_cons]
        rw [hc q (List.mem_cons_self q t),
          ih (fun p hp2 => hc p (List.mem_cons_of_mem q hp2))]
    exact hgen _ hcong

/-- Witness for C8 at the concrete one-record input: the record occupying
the slot after one tick has non-negative, non-zero remaining time. -/
theorem remaining_time_conservation_w :
    0 ≤ wit_running.remaining_time ∧
      (wit_running.remaining_time = 0 ↔ wit_running.state = ProcessState.TERMINATED) :=
  (remaining_time_conservation wit_input (by unfold WFInput; decide) 1).1 wit_running (by decide)

/-- Unfolding of `readyPot` on positive remaining time and interval. -/
theorem readyPot_pos (v w r : Nat) (hv : 1 ≤ v) (hr : 1 ≤ r) :
    readyPot v w r = min v r + 1 +
      (if r - min v r = 0 then 0 else w + 1 + readyPot v w (r - min v r)) := by
  rcases r with _ | r
  · exact absurd hr (by omega)
  · rw [readyPot, Nat.max_eq_right hv]

/-- The run tail only reads the interval, I/O and remaining fields. -/
theorem runTail_congr {a b : Process} (h1 : a.interval_time = b.interval_time)
    (h2 : a.io_time = b.io_time) (h3 : a.remaining_time = b.remaining_time) :
    runTail a = runTail b := by
  unfold runTail; rw [h1, h2, h3]

/-- The ready potential only reads the interval, I/O and remaining fields. -/
theorem readyRecPot_congr {a b : Process} (h1 : a.interval_time = b.interval_time)
    (h2 : a.io_time = b.io_time) (h3 : a.remaining_time = b.remaining_time) :
    readyRecPot a = readyRecPot b := by
  unfold readyRecPot; rw [h1, h2, h3]

/-- Aging does not change the ready potential. -/
theorem readyRecPot_aging (e : Int) (p : Process) :
    readyRecPot (aging_record e p) = readyRecPot p :=
  readyRecPot_congr (aging_record_interval e p) (aging_record_io e p)
    (aging_record_remaining e p)

/-- The ready potential of a ready resident with positive interval and
remaining time splits into the burst length, one resolution tick, and the
run tail. -/
theorem readyRecPot_eq_run (p : Process) (hv : 0 < p.interval_time)
    (hr : 0 < p.remaining_time) :
    readyRecPot p = (min p.interval_time p.remaining_time).toNat + 1 + runTail p := by
  unfold readyRecPot runTail
  rw [readyPot_pos _ _ _ (by omega) (by omega)]
  rcases le_or_lt p.remaining_time p.interval_time with hc | hc
  · rw [if_pos (by omega), if_pos hc]
    omega
  · rw [if_neg (by omega), if_neg (by omega)]
    have harg : p.remaining_time.toNat -
        min p.interval_time.toNat p.remaining_time.toNat =
        (p.remaining_time - p.interval_time).toNat := by omega
    rw [harg]
    omega

/-- Inserting into the ready queue adds exactly the new record's ready
potential to the queue's total. -/
theorem sum_readyRecPot_insert (q : List Process) (p : Process) :
    ((insert_ready_queue q p).map readyRecPot).sum =
      readyRecPot p + (q.map readyRecPot).sum := by
  have h := ((insert_ready_queue_perm q p).map readyRecPot).sum_eq
  rw [h]
  rfl

/-- Re-sorting does not change the ready queue's total potential. -/
theorem sum_readyRecPot_resort (l : List Process) :
    ((resort_ready_queue l).map readyRecPot).sum = (l.map readyRecPot).sum := by
  rcases resort_cases l with ⟨heq, _⟩ | hperm
  · rw [heq]
  · rw [(hperm.map readyRecPot).sum_eq, List.map_map,
      show readyRecPot ∘ timer_reset = readyRecPot from funext fun p => rfl]

/-- Aging does not change the ready queue's total potential. -/
theorem sum_readyRecPot_aging (e : Int) (l : List Process) :
    ((update_aging e l).map readyRecPot).sum = (l.map readyRecPot).sum := by
  unfold update_aging
  rw [List.map_map,
    show readyRecPot ∘ aging_record e = readyRecPot from funext fun p => readyRecPot_aging e p]

/-- A record's pending potential strictly dominates its ready potential. -/
theorem readyRecPot_lt_pendPot (c : Int) (p : Process) :
    readyRecPot p + 1 ≤ pendPot c p := by
  unfold pendPot
  omega

/-- A record's waiting potential strictly dominates its ready potential. -/
theorem readyRecPot_lt_waitPot (c : Int) (p : Process) :
    readyRecPot p + 1 ≤ waitPot c p := by
  unfold waitPot
  omega

/-- Generic strict domination of list sums, counting one unit per element. -/
theorem sum_map_add_length_le {l : List Process} {f g : Process → Nat}
    (h : ∀ p ∈ l, f p + 1 ≤ g p) :
    (l.map f).sum + l.length ≤ (l.map g).sum := by
  induction l with
  | nil => simp
  | cons q t ih =>
    simp only [List.map_cons, List.sum_cons, List.length_cons]
    have h1 := h q (List.mem_cons_self q t)
    have h2 := ih (fun p hp => h p (List.mem_cons_of_mem q hp))
    omega

/-- Measure accounting of the arrival scan: the pending and ready totals
drop by at least one unit per admitted record. -/
theorem arrivals_measure (c : Int) (pd rd : List Process) (ev : List Event) :
    ((arrivals_go c pd rd ev).1.map (pendPot c)).sum +
      (((arrivals_go c pd rd ev).2.1).map readyRecPot).sum +
      (pd.filter (fun p => decide (p.arrival_time ≤ c))).length ≤
    (pd.map (pendPot c)).sum + (rd.map readyRecPot).sum := by
  rw [arrivals_go_pending]
  have hready := ((arrivals_go_ready_perm c pd rd ev).map readyRecPot).sum_eq
  rw [hready, List.map_append, List.sum_append, List.map_map,
    show readyRecPot ∘ admit_mark = readyRecPot from funext fun p => rfl]
  have hpart : ((pd.filter (fun p => decide (c < p.arrival_time))).map (pendPot c)).sum +
      ((pd.filter (fun p => decide (p.arrival_time ≤ c))).map (pendPot c)).sum =
      (pd.map (pendPot c)).sum := by
    have hp2 : pd.filter (fun p => decide (p.arrival_time ≤ c)) =
        pd.filter (fun p => !(decide (c < p.arrival_time))) := by
      apply List.filter_congr
      intro a _
      rcases le_or_lt a.arrival_time c with h | h
      · simp [h, h.not_lt]
      · simp [h, h.not_le]
    rw [hp2, ← List.sum_append, ← List.map_append]
    exact ((pd.filter_append_perm _).map (pendPot c)).sum_eq
  have hadm := sum_map_add_length_le
    (l := pd.filter (fun p => decide (p.arrival_time ≤ c)))
    (fun p _ => readyRecPot_lt_pendPot c p)
  omega

/-- Measure accounting of the monitor scan: the waiting and ready totals
drop by at least one unit per migrated record. -/
theorem io_scan_measure (c : Int) (wt rd : List Process) (ev : List Event) :
    (((io_scan c wt rd ev).1).map (waitPot c)).sum +
      (((io_scan c wt rd ev).2.1).map readyRecPot).sum +
      (wt.filter (fun p => decide (p.io_completion_time ≤ c))).length ≤
    (wt.map (waitPot c)).sum + (rd.map readyRecPot).sum := by
  rw [io_scan_waiting]
  have hready := ((io_scan_ready_perm c wt rd ev).map readyRecPot).sum_eq
  rw [hready, List.map_append, List.sum_append, List.map_map,
    show readyRecPot ∘ io_mark = readyRecPot from funext fun p => rfl]
  have hpart : ((wt.filter (fun p => decide (c < p.io_completion_time))).map (waitPot c)).sum +
      ((wt.filter (fun p => decide (p.io_completion_time ≤ c))).map (waitPot c)).sum =
      (wt.map (waitPot c)).sum := by
    have hp2 : wt.filter (fun p => decide (p.io_completion_time ≤ c)) =
        wt.filter (fun p => !(decide (c < p.io_completion_time))) := by
      apply List.filter_congr
      intro a _
      rcases le_or_lt a.io_completion_time c with h | h
      · simp [h, h.not_lt]
      · simp [h, h.not_le]
    rw [hp2, ← List.sum_append, ← List.map_append]
    exact ((wt.filter_append_perm _).map (waitPot c)).sum_eq
  have hadm := sum_map_add_length_le
    (l := wt.filter (fun p => decide (p.io_completion_time ≤ c)))
    (fun p _ => readyRecPot_lt_waitPot c p)
  omega

/-- Positivity facts about the ready queue after the arrival and aging
phases of a tick, needed by the measure argument. -/
theorem phaseA_ready_facts {s : SimState} (hs : SimInv s) :
    ∀ x ∈ resort_ready_queue (update_aging 1
      ((arrivals_go (s.clock + 1) s.pending s.ready s.events).2.1)),
      0 < x.interval_time ∧ 0 < x.remaining_time := by
  intro x hx
  have hx2 : x ∈ (aging_phase (arrivals_phase (tick_clock s))).ready := by
    rw [phaseA_eq hs]; exact hx
  rcases phaseA_ready_origin hs x hx2 with ⟨y, hy, ho⟩
  rcases ho with ⟨_, _, hrem, hint, _, _, _, _, _⟩
  have hyAll : y ∈ allRecords s := by
    rcases hy with hy | ⟨hy, _⟩
    · exact mem_all_of_ready hy
    · exact mem_all_of_pending hy
  rcases hs.rec_good y hyAll with ⟨hg1, hg2, _⟩
  have hrem2 : 0 < y.remaining_time := by
    rcases hy with hy | ⟨hy, _⟩
    · exact (hs.ready_inv y hy).2.1
    · rw [(hs.pend_inv y hy).2.1]; exact hg2
  exact ⟨by omega, by omega⟩

/-- Dispatch never increases the measure, and strictly decreases it when it
actually moves a record from the ready queue into the slot. -/
theorem dispatch_measure (R : SimState)
    (hready : ∀ x ∈ R.ready, 0 < x.interval_time ∧ 0 < x.remaining_time) :
    simMeasure (dispatch_phase R) ≤ simMeasure R ∧
      (R.running = none → R.ready ≠ [] → simMeasure (dispatch_phase R) + 1 ≤ simMeasure R) := by
  rcases hr : R.running with _ | p
  · rcases hrd : R.ready with _ | ⟨h0, rest⟩
    · rw [dispatch_phase_empty hr hrd]
      exact ⟨le_refl _, fun _ hne => absurd rfl hne⟩
    · have h0mem : h0 ∈ R.ready := by rw [hrd]; exact List.mem_cons_self h0 rest
      have hpot := readyRecPot_eq_run h0 (hready h0 h0mem).1 (hready h0 h0mem).2
      have key : simMeasure (dispatch_phase R) + 1 = simMeasure R := by
        rw [dispatch_phase_take hr hrd]
        unfold simMeasure
        dsimp only
        rw [hr, hrd]
        simp only [List.map_cons, List.sum_cons, Option.toList_some, Option.toList_none,
          List.map_nil, List.sum_nil]
        have h1 : runPot R.clock (R.clock + min h0.interval_time h0.remaining_time)
            { h0 with state := ProcessState.RUNNING } =
            (min h0.interval_time h0.remaining_time).toNat + runTail h0 := by
          unfold runPot
          rw [@runTail_congr { h0 with state := ProcessState.RUNNING } h0 rfl rfl rfl]
          have h2 : (R.clock + min h0.interval_time h0.remaining_time - R.clock).toNat =
              (min h0.interval_time h0.remaining_time).toNat := by omega
          omega
        rw [h1, hpot]
        omega
      exact ⟨by omega, fun _ _ => by omega⟩
  · rw [dispatch_phase_occupied hr]
    refine ⟨le_refl _, fun hn _ => ?_⟩
    exact absurd hn (by simp)

/-- Advancing the clock cannot increase the pending potential. -/
theorem pendPot_mono (c : Int) (p : Process) : pendPot (c + 1) p ≤ pendPot c p := by
  unfold pendPot; omega

/-- Advancing the clock strictly shrinks the pending potential of a record
whose arrival is still in the future. -/
theorem pendPot_strict (c : Int) (p : Process) (h : c < p.arrival_time) :
    pendPot (c + 1) p + 1 ≤ pendPot c p := by
  unfold pendPot; omega

/-- Advancing the clock cannot increase the waiting potential. -/
theorem waitPot_mono (c : Int) (p : Process) : waitPot (c + 1) p ≤ waitPot c p := by
  unfold waitPot; omega

/-- Advancing the clock strictly shrinks the waiting potential of a record
whose deadline is still in the future. -/
theorem waitPot_strict (c : Int) (p : Process) (h : c < p.io_completion_time) :
    waitPot (c + 1) p + 1 ≤ waitPot c p := by
  unfold waitPot; omega

/-- Advancing the clock cannot increase the running potential. -/
theorem runPot_mono (c u : Int) (p : Process) : runPot (c + 1) u p ≤ runPot c u p := by
  unfold runPot; omega

/-- Advancing the clock strictly shrinks the running potential while the
burst deadline is still in the future. -/
theorem runPot_strict (c u : Int) (p : Process) (h : c < u) :
    runPot (c + 1) u p + 1 ≤ runPot c u p := by
  unfold runPot; omega

/-- The monitor scan and the ghost bookkeeping never increase the
measure. -/
theorem io_ghost_measure (m : SimState) :
    simMeasure (ghost_phase (io_phase m)) ≤ simMeasure m := by
  have hE : simMeasure (ghost_phase (io_phase m)) =
      (m.pending.map (pendPot m.clock)).sum +
      (((io_scan m.clock m.waiting m.ready m.events).2.1).map readyRecPot).sum +
      (((io_scan m.clock m.waiting m.ready m.events).1).map (waitPot m.clock)).sum +
      ((m.running.map (fun q => { q with run_ticks := q.run_ticks + 1 })).toList.map
        (runPot m.clock m.running_until)).sum := rfl
  have hgrun : ((m.running.map (fun q => { q with run_ticks := q.run_ticks + 1 })).toList.map
      (runPot m.clock m.running_until)).sum =
      (m.running.toList.map (runPot m.clock m.running_until)).sum := by
    rcases m.running with _ | q
    · rfl
    · simp only [Option.map_some', Option.toList_some, List.map_cons, List.map_nil,
        List.sum_cons, List.sum_nil]
      unfold runPot
      rw [@runTail_congr { q with run_ticks := q.run_ticks + 1 } q rfl rfl rfl]
  have hio := io_scan_measure m.clock m.waiting m.ready m.events
  have hM : simMeasure m = (m.pending.map (pendPot m.clock)).sum +
      (m.ready.map readyRecPot).sum + (m.waiting.map (waitPot m.clock)).sum +
      (m.running.toList.map (runPot m.clock m.running_until)).sum := rfl
  rw [hE, hgrun, hM]
  omega


/-- The tail of a tick (dispatch, monitor scan, ghost bookkeeping) never
increases the measure, and strictly decreases it when dispatch fires. -/
theorem measure_chain (R : SimState)
    (hx : ∀ x ∈ R.ready, 0 < x.interval_time ∧ 0 < x.remaining_time) :
    simMeasure (ghost_phase (io_phase (dispatch_phase R))) ≤ simMeasure R ∧
      (R.running = none → R.ready ≠ [] →
        simMeasure (ghost_phase (io_phase (dispatch_phase R))) + 1 ≤ simMeasure R) := by
  have h1 := io_ghost_measure (dispatch_phase R)
  have h2 := dispatch_measure R hx
  exact ⟨le_trans h1 h2.1,
    fun ha hb => le_trans (Nat.add_le_add_right h1 1) (h2.2 ha hb)⟩

/-- Every tick either raises the completion flag or strictly decreases the
global measure. -/
theorem measure_decrease {s : SimState} (hs : SimInv s) (hf : s.finished = false) :
    (scheduler_tick s).finished = true ∨ simMeasure (scheduler_tick s) < simMeasure s := by
  rw [scheduler_tick_go hf]
  split
  next => exact Or.inl rfl
  next hcond =>
    refine Or.inr ?_
    have hkey : mid_state s =
        dispatch_phase (resolve_phase
          { s with clock := s.clock + 1, last_aging_check := s.clock + 1,
                   pending := (arrivals_go (s.clock + 1) s.pending s.ready s.events).1,
                   ready := resort_ready_queue (update_aging 1
                     ((arrivals_go (s.clock + 1) s.pending s.ready s.events).2.1)),
                   events := (arrivals_go (s.clock + 1) s.pending s.ready s.events).2.2 }) := by
      unfold mid_state; rw [phaseA_eq hs]
    rw [hkey]
    have hreadyF := phaseA_ready_facts hs
    have hready_sum : ((resort_ready_queue (update_aging 1
        ((arrivals_go (s.clock + 1) s.pending s.ready s.events).2.1))).map readyRecPot).sum =
        (((arrivals_go (s.clock + 1) s.pending s.ready s.events).2.1).map readyRecPot).sum := by
      rw [sum_readyRecPot_resort, sum_readyRecPot_aging]
    have harr := arrivals_measure (s.clock + 1) s.pending s.ready s.events
    have hpend1 : (s.pending.map (pendPot (s.clock + 1))).sum ≤
        (s.pending.map (pendPot s.clock)).sum :=
      List.sum_le_sum (fun p _ => pendPot_mono s.clock p)
    have hwait1 : (s.waiting.map (waitPot (s.clock + 1))).sum ≤
        (s.waiting.map (waitPot s.clock)).sum :=
      List.sum_le_sum (fun p _ => waitPot_mono s.clock p)
    rcases hr : s.running with _ | p
    · have hS : simMeasure s = (s.pending.map (pendPot s.clock)).sum +
          (s.ready.map readyRecPot).sum + (s.waiting.map (waitPot s.clock)).sum + 0 := by
        unfold simMeasure; rw [hr]; rfl
      by_cases hw : s.waiting = []
      · by_cases hpd : s.pending = []
        · by_cases hrd : s.ready = []
          · exfalso
            have hdone : all_done (mid_state s) =
                s.terminated_list.all (fun x => x.state == ProcessState.TERMINATED) := by
              rw [hkey, hr, hw, hpd, hrd]
              rfl
            have hterm_all : s.terminated_list.all
                (fun x => x.state == ProcessState.TERMINATED) = true := by
              simp only [List.all_eq_true, beq_iff_eq]
              intro x hx
              exact (hs.term_inv x hx).1
            have hrunN : (mid_state s).running.isNone = true := by
              rw [hkey, hr, hpd, hrd]
              rfl
            exact hcond (by rw [Bool.and_eq_true]; exact ⟨hdone.trans hterm_all, hrunN⟩)
          · have hlen1 : ((arrivals_go (s.clock + 1) s.pending s.ready s.events).2.1).length =
                s.ready.length + ((s.pending.filter
                  (fun x => decide (x.arrival_time ≤ s.clock + 1))).map admit_mark).length := by
              rw [(arrivals_go_ready_perm (s.clock + 1) s.pending s.ready s.events).length_eq,
                List.length_append]
            have hlen2 : (resort_ready_queue (update_aging 1
                ((arrivals_go (s.clock + 1) s.pending s.ready s.events).2.1))).length =
                ((arrivals_go (s.clock + 1) s.pending s.ready s.events).2.1).length := by
              rcases resort_cases (update_aging 1
                  ((arrivals_go (s.clock + 1) s.pending s.ready s.events).2.1)) with
                ⟨heq, _⟩ | hperm
              · rw [heq]
                unfold update_aging
                rw [List.length_map]
              · rw [hperm.length_eq, List.length_map]
                unfold update_aging
                rw [List.length_map]
            have hrlen : 0 < s.ready.length := List.length_pos.mpr hrd
            have hne : resort_ready_queue (update_aging 1
                ((arrivals_go (s.clock + 1) s.pending s.ready s.events).2.1)) ≠ [] := by
              intro hnil
              rw [hnil] at hlen2
              simp only [List.length_nil] at hlen2
              omega
            refine lt_of_lt_of_le (Nat.lt_of_succ_le ((measure_chain _ ?_).2 rfl ?_)) ?_
            · exact hreadyF
            · exact hne
            · show ((arrivals_go (s.clock + 1) s.pending s.ready s.events).1.map
                  (pendPot (s.clock + 1))).sum +
                ((resort_ready_queue (update_aging 1
                  ((arrivals_go (s.clock + 1) s.pending s.ready s.events).2.1))).map
                    readyRecPot).sum +
                (s.waiting.map (waitPot (s.clock + 1))).sum + 0 ≤ simMeasure s
              rw [hS]
              omega
        · obtain ⟨q, qt, hqe⟩ := List.exists_cons_of_ne_nil hpd
          have hqmem : q ∈ s.pending := hqe ▸ List.mem_cons_self q qt
          refine lt_of_le_of_lt (measure_chain _ ?_).1 ?_
          · exact hreadyF
          · show ((arrivals_go (s.clock + 1) s.pending s.ready s.events).1.map
                (pendPot (s.clock + 1))).sum +
              ((resort_ready_queue (update_aging 1
                ((arrivals_go (s.clock + 1) s.pending s.ready s.events).2.1))).map
                  readyRecPot).sum +
              (s.waiting.map (waitPot (s.clock + 1))).sum + 0 < simMeasure s
            rw [hS]
            by_cases hqa : q.arrival_time ≤ s.clock + 1
            · have hadm : 0 < (s.pending.filter
                  (fun x => decide (x.arrival_time ≤ s.clock + 1))).length :=
                List.length_pos_of_mem (List.mem_filter.mpr ⟨hqmem, decide_eq_true hqa⟩)
              omega
            · have hstr : (s.pending.map (pendPot (s.clock + 1))).sum <
                  (s.pending.map (pendPot s.clock)).sum := by
                refine List.sum_lt_sum (pendPot (s.clock + 1)) (pendPot s.clock)
                  (fun x _ => pendPot_mono s.clock x) ⟨q, hqmem, ?_⟩
                have := pendPot_strict s.clock q (by omega)
                omega
              omega
      · obtain ⟨q, qt, hqe⟩ := List.exists_cons_of_ne_nil hw
        have hqmem : q ∈ s.waiting := hqe ▸ List.mem_cons_self q qt
        refine lt_of_le_of_lt (measure_chain _ ?_).1 ?_
        · exact hreadyF
        · show ((arrivals_go (s.clock + 1) s.pending s.ready s.events).1.map
              (pendPot (s.clock + 1))).sum +
            ((resort_ready_queue (update_aging 1
              ((arrivals_go (s.clock + 1) s.pending s.ready s.events).2.1))).map
                readyRecPot).sum +
            (s.waiting.map (waitPot (s.clock + 1))).sum + 0 < simMeasure s
          rw [hS]
          have hstr : (s.waiting.map (waitPot (s.clock + 1))).sum <
              (s.waiting.map (waitPot s.clock)).sum := by
            refine List.sum_lt_sum (waitPot (s.clock + 1)) (waitPot s.clock)
              (fun x _ => waitPot_mono s.clock x) ⟨q, hqmem, ?_⟩
            have := waitPot_strict s.clock q (hs.wait_inv q hqmem).2.2.1
            omega
          omega
    · have hS : simMeasure s = (s.pending.map (pendPot s.clock)).sum +
          (s.ready.map readyRecPot).sum + (s.waiting.map (waitPot s.clock)).sum +
          (runPot s.clock s.running_until p + 0) := by
        unfold simMeasure; rw [hr]; rfl
      have hcu := (hs.run_inv p (by rw [hr]; simp)).2.2.1
      by_cases hdl : s.clock + 1 ≥ s.running_until
      · have hceq : s.clock + 1 = s.running_until := by omega
        have hfire := @resolve_phase_at_deadline
          { s with clock := s.clock + 1, last_aging_check := s.clock + 1,
                   running := some p,
                   pending := (arrivals_go (s.clock + 1) s.pending s.ready s.events).1,
                   ready := resort_ready_queue (update_aging 1
                     ((arrivals_go (s.clock + 1) s.pending s.ready s.events).2.1)),
                   events := (arrivals_go (s.clock + 1) s.pending s.ready s.events).2.2 }
          p rfl hceq
        rw [hfire]
        have hrp : 1 ≤ runPot s.clock s.running_until p := by
          unfold runPot; omega
        by_cases hrv : p.remaining_time ≤ p.interval_time
        · rw [if_pos hrv]
          refine lt_of_le_of_lt (measure_chain _ ?_).1 ?_
          · exact hreadyF
          · show ((arrivals_go (s.clock + 1) s.pending s.ready s.events).1.map
                (pendPot (s.clock + 1))).sum +
              ((resort_ready_queue (update_aging 1
                ((arrivals_go (s.clock + 1) s.pending s.ready s.events).2.1))).map
                  readyRecPot).sum +
              (s.waiting.map (waitPot (s.clock + 1))).sum + 0 < simMeasure s
            rw [hS]
            omega
        · rw [if_neg hrv]
          have hwq : waitPot (s.clock + 1)
              { p with
                remaining_time := p.remaining_time - min p.interval_time p.remaining_time,
                state := ProcessState.WAITING,
                io_completion_time := s.clock + 1 + p.io_time } = runTail p := by
            unfold waitPot runTail readyRecPot
            dsimp only
            rw [if_neg hrv]
            have hmin : min p.interval_time p.remaining_time = p.interval_time := by omega
            rw [hmin]
            omega
          have hrunp : runPot s.clock s.running_until p = 1 + runTail p := by
            unfold runPot; omega
          refine lt_of_le_of_lt (measure_chain _ ?_).1 ?_
          · exact hreadyF
          · show ((arrivals_go (s.clock + 1) s.pending s.ready s.events).1.map
                (pendPot (s.clock + 1))).sum +
              ((resort_ready_queue (update_aging 1
                ((arrivals_go (s.clock + 1) s.pending s.ready s.events).2.1))).map
                  readyRecPot).sum +
              ((s.waiting ++ [{ p with
                remaining_time := p.remaining_time - min p.interval_time p.remaining_time,
                state := ProcessState.WAITING,
                io_completion_time := s.clock + 1 + p.io_time }]).map
                  (waitPot (s.clock + 1))).sum + 0 < simMeasure s
            rw [List.map_append, List.sum_append, hS]
            simp only [List.map_cons, List.map_nil, List.sum_cons, List.sum_nil]
            omega
      · have hsk := @resolve_phase_skip
          { s with clock := s.clock + 1, last_aging_check := s.clock + 1,
                   running := some p,
                   pending := (arrivals_go (s.clock + 1) s.pending s.ready s.events).1,
                   ready := resort_ready_queue (update_aging 1
                     ((arrivals_go (s.clock + 1) s.pending s.ready s.events).2.1)),
                   events := (arrivals_go (s.clock + 1) s.pending s.ready s.events).2.2 }
          p rfl hdl
        rw [hsk]
        have hstr := runPot_strict s.clock s.running_until p hcu
        refine lt_of_le_of_lt (measure_chain _ ?_).1 ?_
        · exact hreadyF
        · show ((arrivals_go (s.clock + 1) s.pending s.ready s.events).1.map
              (pendPot (s.clock + 1))).sum +
            ((resort_ready_queue (update_aging 1
              ((arrivals_go (s.clock + 1) s.pending s.ready s.events).2.1))).map
                readyRecPot).sum +
            (s.waiting.map (waitPot (s.clock + 1))).sum +
            (runPot (s.clock + 1) s.running_until p + 0) < simMeasure s
          rw [hS]
          omega

/-- Strong induction on the measure: from any point of a well-formed run,
some later tick raises the completion flag. -/
theorem tick_future {ps : List Process} (h : WFInput ps) (m : Nat) :
    ∀ n : Nat, simMeasure (run_sim ps n) ≤ m →
      ∃ k, (run_sim ps (n + k)).finished = true := by
  induction m with
  | zero =>
    intro n hn
    by_cases hf : (run_sim ps n).finished = true
    · exact ⟨0, hf⟩
    · rcases measure_decrease (simInv_run h n) (by simpa using hf) with h1 | h1
      · exact ⟨1, h1⟩
      · omega
  | succ m ih =>
    intro n hn
    by_cases hf : (run_sim ps n).finished = true
    · exact ⟨0, hf⟩
    · rcases measure_decrease (simInv_run h n) (by simpa using hf) with h1 | h1
      · exact ⟨1, h1⟩
      · have h3 : simMeasure (run_sim ps (n + 1)) =
            simMeasure (scheduler_tick (run_sim ps n)) := rfl
        have h2 : simMeasure (run_sim ps (n + 1)) ≤ m := by omega
        rcases ih (n + 1) h2 with ⟨k, hk⟩
        exact ⟨1 + k, by rw [show n + (1 + k) = n + 1 + k by omega]; exact hk⟩

/-- C7: for every finite, well-formed input (every record with positive CPU
demand and positive burst interval), the simulation reaches the finished
state — completion flag raised and every record Terminated — after finitely
many ticks. -/
theorem simulation_terminates : ∀ ps : List Process, WFInput ps →
    ∃ n : Nat, (run_sim ps n).finished = true ∧
      ∀ p ∈ allRecords (run_sim ps n), p.state = ProcessState.TERMINATED := by
  intro ps h
  rcases tick_future h (simMeasure (run_sim ps 0)) 0 (le_refl _) with ⟨k, hk0⟩
  have hk : (run_sim ps k).finished = true := by simpa using hk0
  have hs := simInv_run h k
  rcases hs.fin_inv hk with ⟨h1, h2, h3, h4⟩
  refine ⟨k, hk, ?_⟩
  intro p hp
  unfold allRecords at hp
  rw [h1, h2, h3, h4] at hp
  simp at hp
  exact (hs.term_inv p hp).1

/-- Witness for C7: the one-record input with 2 ms of demand and 1 ms
bursts is well formed, so its simulation finishes. -/
theorem simulation_terminates_w : WFInput wit_input ∧
    ∃ n : Nat, (run_sim wit_input n).finished = true ∧
      ∀ p ∈ allRecords (run_sim wit_input n), p.state = ProcessState.TERMINATED :=
  ⟨by unfold WFInput; decide,
    simulation_terminates wit_input (by unfold WFInput; decide)⟩
